import Mathlib

/-!
Verification of the simulation core of the `cellular_evolution` repository.

The development shallowly embeds the Rust source:

* `src/utils/data.rs`   — the slot arena `Heap<T>` (`HeapSlot`, `allocate_slots`,
  `free`, `insert_vec`, `get_mut_pair`, iteration);
* `src/utils/vector.rs` — the 2D vector type `Vec2d` (over `ℝ`, the idealisation
  of `f64`);
* `src/physics/forces.rs` — the `ForceAppl` capability (cells and levers) and
  the Hooke spring `LinearSpring`;
* `src/core/elements.rs` — `Cell` and `CellConnection`;
* `src/core/physics.rs` — `physics_pass`, `apply_viscous_force`,
  `edge_lever`, `apply_force_integrate`;
* `src/core/sim.rs`     — `SimulationState.remove`;
* `src/utils/algorithms.rs` — the CSR adjacency builder and the BFS
  connected-components grouping.

Functions that can panic in Rust (out-of-bounds indexing, violated asserts)
are embedded as `Option`-valued functions, `none` standing for the panic; the
heap they were called on is returned unmodified exactly when the source
asserts before mutating.  Loops become structural recursion or folds; the
mutable state they thread is passed explicitly.
-/

namespace CellEvo

/-- Slot state of the arena (`HeapSlot<T>` in `src/utils/data.rs`):
`none` is a Free slot, `allocated` is reserved-but-uninitialized, and
`some v` is Occupied by `v`. -/
inductive HeapSlot (T : Type) where
  | none : HeapSlot T
  | allocated : HeapSlot T
  | some : T → HeapSlot T
deriving DecidableEq

/-- The arena (`Heap<T>` in `src/utils/data.rs`): a growable vector of slots. -/
structure Heap (T : Type) where
  slots : List (HeapSlot T)
deriving DecidableEq

namespace Heap

variable {T : Type}

/-- `Heap::with_capacity`: a heap with `capacity` Free slots. -/
def with_capacity (T : Type) (capacity : Nat) : Heap T :=
  ⟨List.replicate capacity HeapSlot.none⟩

/-- The value stored at slot `i` when slot `i` is Occupied; `none` when the
slot is Free, Allocated, or out of bounds. -/
def valueAt (h : Heap T) (i : Nat) : Option T :=
  match h.slots[i]? with
  | Option.some (HeapSlot.some v) => Option.some v
  | _ => Option.none

/-- `Heap::get_mut_pair(a, b)`.  The source asserts `a != b`, splits the
backing vector at the larger index (`split_at_mut`, which panics when the
split point exceeds the length), and pattern-matches both slots, panicking
unless both are Occupied.  The embedding returns the two values; `none`
models every panic (equal indices, out of bounds, non-Occupied slot). -/
def get_mut_pair (h : Heap T) (a b : Nat) : Option (T × T) :=
  if a = b then Option.none
  else if a < b then
    match h.slots[a]?, h.slots[b]? with
    | Option.some (HeapSlot.some va), Option.some (HeapSlot.some vb) =>
        Option.some (va, vb)
    | _, _ => Option.none
  else
    match h.slots[b]?, h.slots[a]? with
    | Option.some (HeapSlot.some vb), Option.some (HeapSlot.some va) =>
        Option.some (va, vb)
    | _, _ => Option.none

/-- A write through a mutable reference into slot `i` (as handed out by
`get_mut` or `get_mut_pair`): the Occupied value of slot `i` is replaced. -/
def writeSlot (h : Heap T) (i : Nat) (v : T) : Heap T :=
  ⟨h.slots.set i (HeapSlot.some v)⟩

end Heap

end CellEvo

namespace CellEvo

/-- C1: `get_mut_pair(a, b)` fails when `a = b`; when `a ≠ b` and both slots
are Occupied it returns exactly the two stored values, and a write through
one reference never changes the value at the other slot; it fails whenever
either slot is Free, Allocated, or out of bounds (all the cases in which the
slot holds no value). -/
theorem get_mut_pair_spec (T : Type) (h : Heap T) (a b : Nat) :
    (a = b → h.get_mut_pair a b = Option.none)
    ∧ (a ≠ b → ∀ va vb, h.valueAt a = Option.some va →
        h.valueAt b = Option.some vb →
        h.get_mut_pair a b = Option.some (va, vb)
        ∧ (∀ w, (h.writeSlot a w).valueAt b = h.valueAt b)
        ∧ (∀ w, (h.writeSlot b w).valueAt a = h.valueAt a))
    ∧ (a ≠ b → (h.valueAt a = Option.none ∨ h.valueAt b = Option.none) →
        h.get_mut_pair a b = Option.none) := by
  refine ⟨fun hab => by simp [Heap.get_mut_pair, hab], ?_, ?_⟩
  · intro hab va vb hva hvb
    have hga : h.slots[a]? = Option.some (HeapSlot.some va) := by
      unfold Heap.valueAt at hva
      rcases hg : h.slots[a]? with _ | s
      · rw [hg] at hva; simp at hva
      · cases s <;> rw [hg] at hva <;> simp_all
    have hgb : h.slots[b]? = Option.some (HeapSlot.some vb) := by
      unfold Heap.valueAt at hvb
      rcases hg : h.slots[b]? with _ | s
      · rw [hg] at hvb; simp at hvb
      · cases s <;> rw [hg] at hvb <;> simp_all
    refine ⟨?_, ?_, ?_⟩
    · unfold Heap.get_mut_pair
      rcases lt_trichotomy a b with hlt | heq | hgt
      · simp [hab, hlt, hga, hgb]
      · exact absurd heq hab
      · simp [hab, Nat.not_lt.mpr (Nat.le_of_lt hgt), hga, hgb]
    · intro w
      unfold Heap.valueAt Heap.writeSlot
      rw [List.getElem?_set_ne hab]
    · intro w
      unfold Heap.valueAt Heap.writeSlot
      rw [List.getElem?_set_ne (Ne.symm hab)]
  · intro hab hnone
    unfold Heap.get_mut_pair
    rcases hnone with hna | hnb
    · unfold Heap.valueAt at hna
      rcases hg : h.slots[a]? with _ | s
      · rcases Nat.lt_or_ge a b with hlt | hge
        · simp [hab, hlt, hg]
        · have hgt : b < a := Nat.lt_of_le_of_ne hge (Ne.symm hab)
          simp [hab, Nat.not_lt.mpr (Nat.le_of_lt hgt), hg]
      · cases s with
        | none =>
          rcases Nat.lt_or_ge a b with hlt | hge
          · simp [hab, hlt, hg]
          · have hgt : b < a := Nat.lt_of_le_of_ne hge (Ne.symm hab)
            simp [hab, Nat.not_lt.mpr (Nat.le_of_lt hgt), hg]
        | allocated =>
          rcases Nat.lt_or_ge a b with hlt | hge
          · simp [hab, hlt, hg]
          · have hgt : b < a := Nat.lt_of_le_of_ne hge (Ne.symm hab)
            simp [hab, Nat.not_lt.mpr (Nat.le_of_lt hgt), hg]
        | some v => rw [hg] at hna; simp at hna
    · unfold Heap.valueAt at hnb
      rcases hg : h.slots[b]? with _ | s
      · rcases Nat.lt_or_ge a b with hlt | hge
        · simp [hab, hlt, hg]
        · have hgt : b < a := Nat.lt_of_le_of_ne hge (Ne.symm hab)
          simp [hab, Nat.not_lt.mpr (Nat.le_of_lt hgt), hg]
      · cases s with
        | none =>
          rcases Nat.lt_or_ge a b with hlt | hge
          · simp [hab, hlt, hg]
          · have hgt : b < a := Nat.lt_of_le_of_ne hge (Ne.symm hab)
            simp [hab, Nat.not_lt.mpr (Nat.le_of_lt hgt), hg]
        | allocated =>
          rcases Nat.lt_or_ge a b with hlt | hge
          · simp [hab, hlt, hg]
          · have hgt : b < a := Nat.lt_of_le_of_ne hge (Ne.symm hab)
            simp [hab, Nat.not_lt.mpr (Nat.le_of_lt hgt), hg]
        | some v => rw [hg] at hnb; simp at hnb

/-- Witness for C1 at a concrete heap: slots `[Occupied 10, Allocated,
Occupied 20]`, indices `0` and `2`. -/
theorem get_mut_pair_spec_witness :
    (0 : Nat) ≠ 2
    ∧ Heap.get_mut_pair (⟨[HeapSlot.some 10, HeapSlot.allocated,
        HeapSlot.some 20]⟩ : Heap Nat) 0 2 = Option.some (10, 20) :=
  ⟨by decide,
    ((get_mut_pair_spec Nat ⟨[HeapSlot.some 10, HeapSlot.allocated,
        HeapSlot.some 20]⟩ 0 2).2.1 (by decide) 10 20 (by rfl) (by rfl)).1⟩

end CellEvo

namespace CellEvo

namespace Heap

variable {T : Type}

/-- One-slot Free test (`matches!(slot, HeapSlot::None)` in `allocate_slots`). -/
def slotIsFree : HeapSlot T → Bool
  | HeapSlot.none => true
  | _ => false

/-- One-slot Allocated test (`matches!(slot, HeapSlot::Allocated)` in `insert_vec`). -/
def slotIsAllocated : HeapSlot T → Bool
  | HeapSlot.allocated => true
  | _ => false

/-- The loop guard and body-check of `allocate_slots` at scan position `i`:
`i + count <= slots.len()` and the `count` slots starting at `i` all Free. -/
def freeRunAt (h : Heap T) (i count : Nat) : Bool :=
  decide (i + count ≤ h.slots.length) && ((h.slots.drop i).take count).all slotIsFree

/-- The `while` scan of `allocate_slots`: first fit from position `i`.  `gas`
bounds the iteration count; the loop increments `i` and stops once
`i + count > len`, so `len + 1` iterations always suffice. -/
def findRun (h : Heap T) (count : Nat) : Nat → Nat → Option Nat
  | 0, _ => Option.none
  | gas + 1, i =>
    if i + count ≤ h.slots.length then
      if ((h.slots.drop i).take count).all slotIsFree then Option.some i
      else findRun h count gas (i + 1)
    else Option.none

/-- The marking loop of `allocate_slots`: sets the `count` slots starting at
`i` to Allocated. -/
def markAllocated : List (HeapSlot T) → Nat → Nat → List (HeapSlot T)
  | slots, _, 0 => slots
  | slots, i, count + 1 => markAllocated (slots.set i HeapSlot.allocated) (i + 1) count

/-- `Heap::allocate_slots(count)`: scan existing storage first-fit for a Free
run, mark it Allocated and return its start; otherwise extend the storage by
`count` Allocated slots and return the previous length. -/
def allocate_slots (h : Heap T) (count : Nat) : Heap T × Nat :=
  match findRun h count (h.slots.length + 1) 0 with
  | Option.some i => (⟨markAllocated h.slots i count⟩, i)
  | Option.none => (⟨h.slots ++ List.replicate count HeapSlot.allocated⟩, h.slots.length)

/-- `Heap::free(slot)`: resets the slot to Free whatever its prior state;
`none` models the out-of-bounds indexing panic. -/
def free (h : Heap T) (slot : Nat) : Option (Heap T) :=
  if slot < h.slots.length then Option.some ⟨h.slots.set slot HeapSlot.none⟩
  else Option.none

/-- The write loop of `insert_vec`: zips the target slots with the values. -/
def writeValues : List (HeapSlot T) → Nat → List T → List (HeapSlot T)
  | slots, _, [] => slots
  | slots, i, v :: vs => writeValues (slots.set i (HeapSlot.some v)) (i + 1) vs

/-- `Heap::insert_vec(start, values)`: asserts the target range in bounds and
every target slot Allocated (`none` models the two panics, which fire before
any slot is written), then writes the values, making the slots Occupied. -/
def insert_vec (h : Heap T) (start : Nat) (values : List T) : Option (Heap T) :=
  if start + values.length ≤ h.slots.length
      ∧ ((h.slots.drop start).take values.length).all slotIsAllocated then
    Option.some ⟨writeValues h.slots start values⟩
  else Option.none

end Heap

/-- A `(l.drop start).take count` slice satisfies a Boolean slot predicate
exactly when every in-bounds slot of the index range does. -/
theorem all_slice_iff {T : Type} (p : HeapSlot T → Bool) (l : List (HeapSlot T))
    (start count : Nat) :
    ((l.drop start).take count).all p = true ↔
      ∀ j s, start ≤ j → j < start + count → l[j]? = Option.some s → p s = true := by
  rw [List.all_eq_true]
  constructor
  · intro hall j s h1 h2 hget
    refine hall s ?_
    have hjs : j - start < count := by omega
    have h1' : ((l.drop start).take count)[j - start]? = Option.some s := by
      rw [List.getElem?_take_of_lt hjs, List.getElem?_drop]
      have : start + (j - start) = j := by omega
      rw [this, hget]
    exact List.getElem?_mem h1'
  · intro hfa s hmem
    obtain ⟨j, hj, he⟩ := List.mem_iff_getElem.mp hmem
    have hjc : j < count := by
      have := hj
      simp [List.length_take] at this
      omega
    have hget : l[start + j]? = Option.some s := by
      have h1 : ((l.drop start).take count)[j]? = Option.some s := by
        simp [List.getElem?_eq_getElem hj, he]
      rw [List.getElem?_take_of_lt hjc, List.getElem?_drop] at h1
      exact h1
    exact hfa (start + j) s (by omega) (by omega) hget

theorem markAllocated_getElem? {T : Type} :
    ∀ (count : Nat) (slots : List (HeapSlot T)) (i j : Nat),
      (Heap.markAllocated slots i count)[j]? =
        if i ≤ j ∧ j < i + count ∧ j < slots.length
        then Option.some HeapSlot.allocated else slots[j]? := by
  intro count
  induction count with
  | zero =>
    intro slots i j
    simp only [Heap.markAllocated]
    rw [if_neg (by omega)]
  | succ n ih =>
    intro slots i j
    show (Heap.markAllocated (slots.set i HeapSlot.allocated) (i + 1) n)[j]? = _
    rw [ih, List.length_set]
    rcases eq_or_ne j i with rfl | hne
    · rw [if_neg (by omega)]
      rcases Nat.lt_or_ge j slots.length with hlt | hge
      · rw [List.getElem?_set_self hlt, if_pos (by exact ⟨Nat.le_refl _, by omega, hlt⟩)]
      · rw [if_neg (by omega), List.set_eq_of_length_le (by omega)]
    · rw [List.getElem?_set_ne (Ne.symm hne)]
      by_cases hin : i ≤ j ∧ j < i + (n + 1) ∧ j < slots.length
      · rw [if_pos (by omega), if_pos hin]
      · rw [if_neg (by omega), if_neg hin]

theorem markAllocated_length {T : Type} :
    ∀ (count : Nat) (slots : List (HeapSlot T)) (i : Nat),
      (Heap.markAllocated slots i count).length = slots.length := by
  intro count
  induction count with
  | zero => intro slots i; rfl
  | succ n ih => intro slots i; rw [Heap.markAllocated, ih, List.length_set]

theorem findRun_some {T : Type} (h : Heap T) (count : Nat) :
    ∀ (gas i r : Nat), Heap.findRun h count gas i = Option.some r →
      i ≤ r ∧ h.freeRunAt r count = true
        ∧ ∀ j, i ≤ j → j < r → h.freeRunAt j count = false := by
  intro gas
  induction gas with
  | zero => intro i r hr; simp [Heap.findRun] at hr
  | succ g ih =>
    intro i r hr
    rw [Heap.findRun] at hr
    by_cases hguard : i + count ≤ h.slots.length
    · rw [if_pos hguard] at hr
      by_cases hchk : ((h.slots.drop i).take count).all Heap.slotIsFree = true
      · rw [if_pos hchk] at hr
        obtain rfl : i = r := by injection hr
        refine ⟨Nat.le_refl _, ?_, fun j h1 h2 => absurd (Nat.lt_of_le_of_lt h1 h2) (lt_irrefl _)⟩
        unfold Heap.freeRunAt
        simp [hguard, hchk]
      · rw [if_neg hchk] at hr
        obtain ⟨h1, h2, h3⟩ := ih (i + 1) r hr
        refine ⟨by omega, h2, fun j hj1 hj2 => ?_⟩
        rcases eq_or_ne j i with rfl | hne
        · unfold Heap.freeRunAt
          simp [hchk]
        · exact h3 j (by omega) hj2
    · rw [if_neg hguard] at hr
      exact absurd hr (by simp)

theorem findRun_none {T : Type} (h : Heap T) (count : Nat) :
    ∀ (gas i : Nat), Heap.findRun h count gas i = Option.none →
      h.slots.length + 1 ≤ gas + i →
      ∀ j, i ≤ j → h.freeRunAt j count = false := by
  intro gas
  induction gas with
  | zero =>
    intro i hr hgas j hj
    unfold Heap.freeRunAt
    have : ¬ (j + count ≤ h.slots.length) := by omega
    simp [this]
  | succ g ih =>
    intro i hr hgas j hj
    rw [Heap.findRun] at hr
    by_cases hguard : i + count ≤ h.slots.length
    · rw [if_pos hguard] at hr
      by_cases hchk : ((h.slots.drop i).take count).all Heap.slotIsFree = true
      · rw [if_pos hchk] at hr; exact absurd hr (by simp)
      · rw [if_neg hchk] at hr
        rcases eq_or_ne j i with rfl | hne
        · unfold Heap.freeRunAt
          simp [hchk]
        · exact ih (i + 1) hr (by omega) j (by omega)
    · unfold Heap.freeRunAt
      have : ¬ (j + count ≤ h.slots.length) := by omega
      simp [this]

theorem findRun_of_all_false {T : Type} (h : Heap T) (count : Nat)
    (hall : ∀ i, h.freeRunAt i count = false) :
    ∀ (gas i : Nat), Heap.findRun h count gas i = Option.none := by
  intro gas
  induction gas with
  | zero => intro i; rfl
  | succ g ih =>
    intro i
    rw [Heap.findRun]
    by_cases hguard : i + count ≤ h.slots.length
    · rw [if_pos hguard]
      have := hall i
      unfold Heap.freeRunAt at this
      rw [decide_eq_true hguard] at this
      simp only [Bool.true_and] at this
      rw [if_neg (by simp [this]), ih]
    · rw [if_neg hguard]

end CellEvo

namespace CellEvo

theorem slotIsFree_iff {T : Type} (s : HeapSlot T) :
    Heap.slotIsFree s = true ↔ s = HeapSlot.none := by
  cases s <;> simp [Heap.slotIsFree]

theorem slotIsAllocated_iff {T : Type} (s : HeapSlot T) :
    Heap.slotIsAllocated s = true ↔ s = HeapSlot.allocated := by
  cases s <;> simp [Heap.slotIsAllocated]

/-- When the index range is in bounds, an all-slice check against a predicate
that characterises a single slot state says every slot of the range is in
that state. -/
theorem all_slice_iff_value {T : Type} (l : List (HeapSlot T)) (p : HeapSlot T → Bool)
    (t : HeapSlot T) (hp : ∀ s, p s = true ↔ s = t) (start count : Nat)
    (hb : start + count ≤ l.length) :
    ((l.drop start).take count).all p = true ↔
      ∀ j, start ≤ j → j < start + count → l[j]? = Option.some t := by
  rw [all_slice_iff]
  constructor
  · intro hall j h1 h2
    have hjlen : j < l.length := by omega
    have hget : l[j]? = Option.some (l[j]) := List.getElem?_eq_getElem hjlen
    have := hall j (l[j]) h1 h2 hget
    rw [hget, (hp _).mp this]
  · intro hall j s h1 h2 hget
    have h3 := hall j h1 h2
    rw [hget] at h3
    have hh : s = t := by injection h3
    rw [hp, hh]

theorem freeRunAt_iff {T : Type} (h : Heap T) (i n : Nat) :
    h.freeRunAt i n = true ↔
      (i + n ≤ h.slots.length
        ∧ ∀ j, i ≤ j → j < i + n → h.slots[j]? = Option.some HeapSlot.none) := by
  unfold Heap.freeRunAt
  rw [Bool.and_eq_true, decide_eq_true_iff]
  constructor
  · rintro ⟨hb, hall⟩
    exact ⟨hb, (all_slice_iff_value _ _ _ slotIsFree_iff i n hb).mp hall⟩
  · rintro ⟨hb, hall⟩
    exact ⟨hb, (all_slice_iff_value _ _ _ slotIsFree_iff i n hb).mpr hall⟩

theorem allocate_slots_eq_found {T : Type} (h : Heap T) (n r : Nat)
    (hfr : Heap.findRun h n (h.slots.length + 1) 0 = Option.some r) :
    h.allocate_slots n = (⟨Heap.markAllocated h.slots r n⟩, r) := by
  unfold Heap.allocate_slots
  rw [hfr]

theorem allocate_slots_found {T : Type} (h : Heap T) (n : Nat)
    (hex : ∃ i, h.freeRunAt i n = true) :
    h.freeRunAt (h.allocate_slots n).2 n = true
      ∧ (∀ j, j < (h.allocate_slots n).2 → h.freeRunAt j n = false)
      ∧ (h.allocate_slots n).1.slots.length = h.slots.length
      ∧ ∀ j, (h.allocate_slots n).1.slots[j]? =
          if (h.allocate_slots n).2 ≤ j ∧ j < (h.allocate_slots n).2 + n
          then Option.some HeapSlot.allocated else h.slots[j]? := by
  rcases hfr : Heap.findRun h n (h.slots.length + 1) 0 with _ | r
  · exfalso
    obtain ⟨i, hi⟩ := hex
    have := findRun_none h n (h.slots.length + 1) 0 hfr (by omega) i (Nat.zero_le _)
    rw [hi] at this
    exact absurd this (by decide)
  · rw [allocate_slots_eq_found h n r hfr]
    obtain ⟨h0, hfree, hmin⟩ := findRun_some h n (h.slots.length + 1) 0 r hfr
    refine ⟨hfree, fun j hj => hmin j (Nat.zero_le _) hj,
      markAllocated_length n h.slots r, fun j => ?_⟩
    show (Heap.markAllocated h.slots r n)[j]? = _
    rw [markAllocated_getElem?]
    have hbound : r + n ≤ h.slots.length := ((freeRunAt_iff h r n).mp hfree).1
    by_cases hin : r ≤ j ∧ j < r + n
    · rw [if_pos ⟨hin.1, hin.2, by omega⟩, if_pos hin]
    · rw [if_neg (by omega), if_neg hin]

end CellEvo

namespace CellEvo

/-- C7: `allocate_slots(n)` returns the smallest index `i` whose `n` slots
`i..i+n` are all Free (the first conjunct interprets the scan check
`freeRunAt`), marks exactly those slots Allocated and leaves every other slot
unchanged; when no such run exists in current storage it appends `n`
Allocated slots and returns the previous length; and `free(i)` immediately
followed by `allocate_slots(1)` returns `i` whenever no Free slot exists at
an index below `i`. -/
theorem allocate_slots_spec (T : Type) (h : Heap T) (n : Nat) :
    (∀ i, h.freeRunAt i n = true ↔
        (i + n ≤ h.slots.length
          ∧ ∀ j, i ≤ j → j < i + n → h.slots[j]? = Option.some HeapSlot.none))
    ∧ ((∃ i, h.freeRunAt i n = true) →
        h.freeRunAt (h.allocate_slots n).2 n = true
        ∧ (∀ j, j < (h.allocate_slots n).2 → h.freeRunAt j n = false)
        ∧ (h.allocate_slots n).1.slots.length = h.slots.length
        ∧ ∀ j, (h.allocate_slots n).1.slots[j]? =
            if (h.allocate_slots n).2 ≤ j ∧ j < (h.allocate_slots n).2 + n
            then Option.some HeapSlot.allocated else h.slots[j]?)
    ∧ ((∀ i, h.freeRunAt i n = false) →
        h.allocate_slots n =
          (⟨h.slots ++ List.replicate n HeapSlot.allocated⟩, h.slots.length))
    ∧ (∀ i h', h.free i = Option.some h' →
        (∀ j, j < i → h.slots[j]? ≠ Option.some HeapSlot.none) →
        (h'.allocate_slots 1).2 = i) := by
  refine ⟨fun i => freeRunAt_iff h i n, allocate_slots_found h n, ?_, ?_⟩
  · intro hall
    unfold Heap.allocate_slots
    rw [findRun_of_all_false h n hall]
  · intro i h' hfree hnofree
    unfold Heap.free at hfree
    by_cases hlen : i < h.slots.length
    · rw [if_pos hlen] at hfree
      obtain rfl : (⟨h.slots.set i HeapSlot.none⟩ : Heap T) = h' := by injection hfree
      have hlen' : (h.slots.set i HeapSlot.none).length = h.slots.length :=
        List.length_set _ _ _
      have hfi : Heap.freeRunAt ⟨h.slots.set i HeapSlot.none⟩ i 1 = true := by
        rw [freeRunAt_iff]
        refine ⟨by simpa [hlen'] using hlen, fun j h1 h2 => ?_⟩
        obtain rfl : j = i := by omega
        show (h.slots.set j HeapSlot.none)[j]? = _
        rw [List.getElem?_set_self hlen]
      have hmin : ∀ j, j < i →
          Heap.freeRunAt ⟨h.slots.set i HeapSlot.none⟩ j 1 = false := by
        intro j hj
        rcases Bool.eq_false_or_eq_true
            (Heap.freeRunAt ⟨h.slots.set i HeapSlot.none⟩ j 1) with hb | hb
        on_goal 2 => exact hb
        · exfalso
          obtain ⟨hb1, hb2⟩ := (freeRunAt_iff _ j 1).mp hb
          have := hb2 j (Nat.le_refl j) (by omega)
          rw [show (⟨h.slots.set i HeapSlot.none⟩ : Heap T).slots
              = h.slots.set i HeapSlot.none from rfl,
            List.getElem?_set_ne (by omega)] at this
          exact hnofree j hj this
      obtain ⟨hr1, hr2, _, _⟩ :=
        allocate_slots_found (⟨h.slots.set i HeapSlot.none⟩ : Heap T) 1 ⟨i, hfi⟩
      set r := ((⟨h.slots.set i HeapSlot.none⟩ : Heap T).allocate_slots 1).2 with hrdef
      rcases Nat.lt_trichotomy r i with hlt | heq | hgt
      · rw [hmin r hlt] at hr1
        exact absurd hr1 (by decide)
      · exact heq
      · rw [hr2 i hgt] at hfi
        exact absurd hfi (by decide)
    · rw [if_neg hlen] at hfree
      exact absurd hfree (by simp)

/-- Witness for C7: the heap `[Occupied 5, Occupied 7]`; freeing slot 1 and
allocating one slot returns 1 again. -/
theorem allocate_slots_spec_witness :
    Heap.free (⟨[HeapSlot.some 5, HeapSlot.some 7]⟩ : Heap Nat) 1 =
        Option.some ⟨[HeapSlot.some 5, HeapSlot.none]⟩
    ∧ ((⟨[HeapSlot.some 5, HeapSlot.none]⟩ : Heap Nat).allocate_slots 1).2 = 1 :=
  ⟨by decide,
    (allocate_slots_spec Nat ⟨[HeapSlot.some 5, HeapSlot.some 7]⟩ 1).2.2.2 1
      ⟨[HeapSlot.some 5, HeapSlot.none]⟩ (by decide)
      (fun j hj => by
        obtain rfl : j = 0 := by omega
        decide)⟩

end CellEvo

namespace CellEvo

theorem writeValues_getElem? {T : Type} :
    ∀ (values : List T) (slots : List (HeapSlot T)) (i : Nat),
      i + values.length ≤ slots.length →
      ∀ j, (Heap.writeValues slots i values)[j]? =
        if i ≤ j ∧ j < i + values.length
        then (values[(j - i)]?).map HeapSlot.some else slots[j]? := by
  intro values
  induction values with
  | nil =>
    intro slots i hb j
    simp only [Heap.writeValues]
    rw [if_neg (by simp only [List.length_nil, Nat.add_zero]; omega)]
  | cons v vs ih =>
    intro slots i hb j
    show (Heap.writeValues (slots.set i (HeapSlot.some v)) (i + 1) vs)[j]? = _
    rw [ih (slots.set i (HeapSlot.some v)) (i + 1)
        (by rw [List.length_set]; simp only [List.length_cons] at hb; omega) j]
    rcases eq_or_ne j i with rfl | hne
    · rw [if_neg (by omega), if_pos (by simp only [List.length_cons]; omega)]
      have hi : j < slots.length := by simp only [List.length_cons] at hb; omega
      rw [List.getElem?_set_self hi]
      have h0 : j - j = 0 := by omega
      rw [h0, List.getElem?_cons_zero]
      rfl
    · rw [List.getElem?_set_ne (Ne.symm hne)]
      by_cases h2 : i + 1 ≤ j ∧ j < i + 1 + vs.length
      · rw [if_pos h2, if_pos (by simp only [List.length_cons]; omega)]
        have hsucc : j - i = (j - (i + 1)) + 1 := by omega
        rw [hsucc, List.getElem?_cons_succ]
      · rw [if_neg h2, if_neg (by simp only [List.length_cons]; omega)]

theorem writeValues_length {T : Type} :
    ∀ (values : List T) (slots : List (HeapSlot T)) (i : Nat),
      (Heap.writeValues slots i values).length = slots.length := by
  intro values
  induction values with
  | nil => intro slots i; rfl
  | cons v vs ih =>
    intro slots i
    show (Heap.writeValues (slots.set i (HeapSlot.some v)) (i + 1) vs).length = _
    rw [ih, List.length_set]

/-- C10: `insert_vec(start, values)` is atomic on error: when the target
range is out of bounds or some target slot is not Allocated the call fails
(both asserts fire before any slot is written, so the heap is unchanged —
here, no `some` result is produced); on success exactly the target slots go
from Allocated to Occupied with the given values in order, and every other
slot is unchanged. -/
theorem insert_vec_spec (T : Type) (h : Heap T) (start : Nat) (values : List T) :
    (¬ (start + values.length ≤ h.slots.length
          ∧ ∀ j, start ≤ j → j < start + values.length →
              h.slots[j]? = Option.some HeapSlot.allocated) →
        h.insert_vec start values = Option.none)
    ∧ (∀ h', h.insert_vec start values = Option.some h' →
        (∀ j, start ≤ j → j < start + values.length →
            h.slots[j]? = Option.some HeapSlot.allocated)
        ∧ h'.slots.length = h.slots.length
        ∧ (∀ j, start ≤ j → j < start + values.length →
            h'.slots[j]? = (values[(j - start)]?).map HeapSlot.some)
        ∧ (∀ j, ¬ (start ≤ j ∧ j < start + values.length) →
            h'.slots[j]? = h.slots[j]?)) := by
  constructor
  · intro hbad
    unfold Heap.insert_vec
    rw [if_neg]
    intro ⟨hc1, hc2⟩
    exact hbad ⟨hc1,
      (all_slice_iff_value h.slots _ _ slotIsAllocated_iff start values.length hc1).mp hc2⟩
  · intro h' hins
    unfold Heap.insert_vec at hins
    by_cases hcond : start + values.length ≤ h.slots.length
        ∧ ((h.slots.drop start).take values.length).all Heap.slotIsAllocated = true
    · rw [if_pos hcond] at hins
      obtain rfl : (⟨Heap.writeValues h.slots start values⟩ : Heap T) = h' := by
        injection hins
      obtain ⟨hc1, hc2⟩ := hcond
      have halloc :=
        (all_slice_iff_value h.slots _ _ slotIsAllocated_iff start values.length hc1).mp hc2
      refine ⟨halloc, writeValues_length values h.slots start, ?_, ?_⟩
      · intro j h1 h2
        show (Heap.writeValues h.slots start values)[j]? = _
        rw [writeValues_getElem? values h.slots start hc1 j, if_pos ⟨h1, h2⟩]
      · intro j hout
        show (Heap.writeValues h.slots start values)[j]? = _
        rw [writeValues_getElem? values h.slots start hc1 j, if_neg hout]
    · rw [if_neg hcond] at hins
      exact absurd hins (by simp)

/-- Witness for C10: inserting `[3, 4]` into the Allocated slots 1 and 2 of a
three-slot heap. -/
theorem insert_vec_spec_witness :
    Heap.insert_vec (⟨[HeapSlot.some 9, HeapSlot.allocated, HeapSlot.allocated]⟩ :
        Heap Nat) 1 [3, 4] =
      Option.some ⟨[HeapSlot.some 9, HeapSlot.some 3, HeapSlot.some 4]⟩
    ∧ (∀ j, 1 ≤ j → j < 1 + 2 →
        (⟨[HeapSlot.some 9, HeapSlot.allocated, HeapSlot.allocated]⟩ :
          Heap Nat).slots[j]? = Option.some HeapSlot.allocated) :=
  ⟨by decide,
    ((insert_vec_spec Nat ⟨[HeapSlot.some 9, HeapSlot.allocated, HeapSlot.allocated]⟩
        1 [3, 4]).2 ⟨[HeapSlot.some 9, HeapSlot.some 3, HeapSlot.some 4]⟩ (by decide)).1⟩

end CellEvo

namespace CellEvo

/-- `Vec2d` (src/utils/vector.rs), over `ℝ` (the idealisation of `f64`). -/
@[ext]
structure Vec2d where
  x : ℝ
  y : ℝ

namespace Vec2d

/-- `Vec2d::ZERO`. -/
def zero : Vec2d := ⟨0, 0⟩

/-- `Vec2d::from_angle`. -/
noncomputable def from_angle (a : ℝ) : Vec2d := ⟨Real.cos a, Real.sin a⟩

/-- `Vec2d::dot`. -/
noncomputable def dot (v w : Vec2d) : ℝ := v.x * w.x + v.y * w.y

/-- `Vec2d::length`. -/
noncomputable def length (v : Vec2d) : ℝ := Real.sqrt (v.dot v)

/-- `Vec2d::perp`. -/
def perp (v : Vec2d) : Vec2d := ⟨-v.y, v.x⟩

/-- `Vec2d::perp_dot`. -/
noncomputable def perp_dot (v w : Vec2d) : ℝ := v.x * w.y - v.y * w.x

instance : Add Vec2d := ⟨fun v w => ⟨v.x + w.x, v.y + w.y⟩⟩

instance : Sub Vec2d := ⟨fun v w => ⟨v.x - w.x, v.y - w.y⟩⟩

noncomputable instance : HMul Vec2d ℝ Vec2d := ⟨fun v c => ⟨v.x * c, v.y * c⟩⟩

noncomputable instance : HDiv Vec2d ℝ Vec2d := ⟨fun v c => ⟨v.x / c, v.y / c⟩⟩

instance : Neg Vec2d := ⟨fun v => ⟨-v.x, -v.y⟩⟩

/-- `Vec2d::normalize`: the zero vector when the length is zero, `self / len`
otherwise. -/
noncomputable def normalize (v : Vec2d) : Vec2d :=
  if v.length = 0 then zero else v / v.length

theorem add_def (v w : Vec2d) : v + w = ⟨v.x + w.x, v.y + w.y⟩ := rfl

theorem sub_def (v w : Vec2d) : v - w = ⟨v.x - w.x, v.y - w.y⟩ := rfl

theorem smul_def (v : Vec2d) (c : ℝ) : v * c = ⟨v.x * c, v.y * c⟩ := rfl

theorem sdiv_def (v : Vec2d) (c : ℝ) : v / c = ⟨v.x / c, v.y / c⟩ := rfl

theorem neg_def (v : Vec2d) : -v = ⟨-v.x, -v.y⟩ := rfl

theorem smul_zero (v : Vec2d) : v * (0 : ℝ) = zero := by
  rw [smul_def]
  simp [zero]

theorem zero_smul (c : ℝ) : (zero * c : Vec2d) = zero := by
  rw [smul_def]
  simp [zero]

theorem add_zero_right (v : Vec2d) : v + zero = v := by
  rw [add_def]
  simp [zero]

end Vec2d

/-- `CellType` (src/core/features.rs): a rendering/identity tag, irrelevant to
physics. -/
inductive CellType where
  | Neural | Muscle | Fat | Liver | Intestinal | Kidney | HairFollicle | Spore

/-- `Cell` (src/core/elements.rs): rigid-body state of one cell. -/
structure Cell where
  force : Vec2d
  mass : ℝ
  position : Vec2d
  velocity : Vec2d
  torque : ℝ
  angular_inertia : ℝ
  angle : ℝ
  angular_velocity : ℝ
  size : ℝ
  typ : CellType

/-- `CellConnection` (src/core/elements.rs). -/
structure CellConnection where
  id_a : Nat
  angle_a : ℝ
  id_b : Nat
  angle_b : ℝ

/-- `CellConnection::new`: plain construction from the four fields. -/
def CellConnection.new (ida : Nat) (aa : ℝ) (idb : Nat) (ab : ℝ) : CellConnection :=
  ⟨ida, aa, idb, ab⟩

/-- `CellConnection::points_toward`. -/
def CellConnection.points_toward (c : CellConnection) (id : Nat) : Bool :=
  c.id_a = id || c.id_b = id

/-- The `ForceAppl` trait (src/physics/forces.rs) as a capability record over
a holder state `α`: apply a force, apply a torque, report position. -/
structure ForceAppl (α : Type) where
  apply_force : α → Vec2d → α
  apply_torque : α → ℝ → α
  pos : α → Vec2d

/-- `impl ForceAppl for Cell`: forces and torques accumulate directly;
position is the cell center. -/
def cellForceAppl : ForceAppl Cell where
  apply_force c f := { c with force := c.force + f }
  apply_torque c t := { c with torque := c.torque + t }
  pos c := c.position

/-- `impl ForceAppl for Lever<T>`: a lever state is the wrapped body state
paired with the `application` offset.  A force is forwarded to the body
together with the cross-product torque; a torque with a non-negligible offset
is converted to a force on the body (note the source forwards that force to
`self.body`, not through the lever itself); `pos` is the body position plus
the offset. -/
noncomputable def leverForceAppl {α : Type} (F : ForceAppl α) : ForceAppl (α × Vec2d) where
  apply_force s f :=
    (F.apply_torque (F.apply_force s.1 f) (s.2.perp_dot f), s.2)
  apply_torque s t :=
    let r_mag := s.2.length
    if r_mag > 1e-10 then
      let force_direction := s.2.perp / r_mag
      let force_magnitude := t / r_mag
      let force := force_direction * force_magnitude
      (F.apply_force s.1 force, s.2)
    else
      (F.apply_torque s.1 t, s.2)
  pos s := F.pos s.1 + s.2

/-- `LinearSpring` (src/physics/forces.rs). -/
structure LinearSpring where
  length : ℝ
  k : ℝ

/-- `LinearSpring::tick` over any `ForceAppl` capability: Hooke's law between
`a` and `b`, applying `force * -1` to `a` and `force` to `b`. -/
noncomputable def LinearSpring.tick {α : Type} (s : LinearSpring) (F : ForceAppl α)
    (a b : α) : α × α :=
  let delta := F.pos b - F.pos a
  let stretch := delta.length - s.length
  let force_mag := -s.k * stretch
  let force_dir := delta.normalize
  let force := force_dir * force_mag
  (F.apply_force a (force * (-1 : ℝ)), F.apply_force b force)

/-- `Cell::edge_lever(angle)` (src/core/physics.rs): a lever over the cell
whose application offset is `direction(cell.angle + angle) * cell.size * 0.5`. -/
noncomputable def Cell.edge_lever (c : Cell) (angle : ℝ) : Cell × Vec2d :=
  (c, Vec2d.from_angle (c.angle + angle) * c.size * (0.5 : ℝ))

/-- `Cell::apply_force_integrate(dt)` (src/core/physics.rs): semi-implicit
Euler, sequentially as the source writes it, then the accumulator reset. -/
noncomputable def Cell.apply_force_integrate (c : Cell) (dt : ℝ) : Cell :=
  let velocity := c.velocity + c.force * dt / c.mass
  let position := c.position + velocity * dt
  let angular_velocity := c.angular_velocity + c.torque * dt / c.angular_inertia
  let angle := c.angle + angular_velocity * dt
  { c with velocity := velocity, position := position,
           angular_velocity := angular_velocity, angle := angle,
           force := Vec2d.zero, torque := 0 }

/-- `apply_viscous_force` (src/core/physics.rs). -/
noncomputable def apply_viscous_force (c : Cell) (viscosity : ℝ) : Cell :=
  let force := (-c.velocity) * c.size * viscosity
  let torque := -c.angular_velocity * c.size * viscosity
  cellForceAppl.apply_torque (cellForceAppl.apply_force c force) torque

/-- `SimContext` (src/core/sim.rs). -/
structure SimContext where
  viscosity : ℝ

/-- `SimulationState` (src/core/sim.rs). -/
structure SimulationState where
  context : SimContext
  cells : Heap Cell
  connections : List CellConnection

end CellEvo

namespace CellEvo

/-- A default-physics cell (mirrors `Cell::new` with unit disk values except
that mass and inertia are irrelevant constants here): used as concrete input
for witnesses. -/
def cell0 : Cell :=
  { force := Vec2d.zero, mass := 1, position := Vec2d.zero,
    velocity := Vec2d.zero, torque := 0, angular_inertia := 1, angle := 0,
    angular_velocity := 0, size := 1, typ := CellType.Neural }

/-- `cell0` displaced to position `p`. -/
def cellAt (p : Vec2d) : Cell := { cell0 with position := p }

/-- Applying the zero force to a cell leaves it unchanged. -/
theorem cell_apply_force_zero (c : Cell) :
    cellForceAppl.apply_force c Vec2d.zero = c := by
  show { c with force := c.force + Vec2d.zero } = c
  rw [Vec2d.add_zero_right]

/-- C3: one integration step is semi-implicit Euler in this exact order —
velocity first, position from the updated velocity, angular velocity, angle
from the updated angular velocity — and afterwards the force accumulator is
the zero vector and the torque accumulator is zero. -/
theorem apply_force_integrate_spec (c : Cell) (dt : ℝ) :
    c.apply_force_integrate dt =
      { c with
        velocity := c.velocity + c.force * dt / c.mass,
        position := c.position + (c.velocity + c.force * dt / c.mass) * dt,
        angular_velocity := c.angular_velocity + c.torque * dt / c.angular_inertia,
        angle := c.angle + (c.angular_velocity + c.torque * dt / c.angular_inertia) * dt,
        force := Vec2d.zero,
        torque := 0 }
    ∧ (c.apply_force_integrate dt).force = Vec2d.zero
    ∧ (c.apply_force_integrate dt).torque = 0 :=
  ⟨rfl, rfl, rfl⟩

/-- C5: `LinearSpring::tick` on two cells applies Hooke's law — `force =
normalize(delta) * (-k * (|delta| - length))` with `delta = B.pos - A.pos`,
`-force` to `A` and `+force` to `B`; a zero-length `delta` normalizes to the
zero vector so both cells receive zero force; and at exact rest length both
cells receive zero force. -/
theorem linear_spring_tick_spec (s : LinearSpring) (a b : Cell) :
    s.tick cellForceAppl a b =
      ({ a with force := a.force +
          ((b.position - a.position).normalize *
            (-s.k * ((b.position - a.position).length - s.length))) * (-1 : ℝ) },
       { b with force := b.force +
          (b.position - a.position).normalize *
            (-s.k * ((b.position - a.position).length - s.length)) })
    ∧ ((b.position - a.position).length = 0 →
        (b.position - a.position).normalize = Vec2d.zero
        ∧ s.tick cellForceAppl a b = (a, b))
    ∧ ((b.position - a.position).length = s.length →
        s.tick cellForceAppl a b = (a, b)) := by
  refine ⟨rfl, ?_, ?_⟩
  · intro h
    have hn : (b.position - a.position).normalize = Vec2d.zero := by
      rw [Vec2d.normalize, if_pos h]
    refine ⟨hn, ?_⟩
    show (cellForceAppl.apply_force a _, cellForceAppl.apply_force b _) = (a, b)
    have hpos : cellForceAppl.pos b - cellForceAppl.pos a = b.position - a.position := rfl
    rw [hpos, hn, Vec2d.zero_smul, Vec2d.zero_smul, cell_apply_force_zero,
      cell_apply_force_zero]
  · intro h
    show (cellForceAppl.apply_force a _, cellForceAppl.apply_force b _) = (a, b)
    have hpos : cellForceAppl.pos b - cellForceAppl.pos a = b.position - a.position := rfl
    rw [hpos, h, sub_self, mul_zero, Vec2d.smul_zero, Vec2d.zero_smul,
      cell_apply_force_zero, cell_apply_force_zero]

/-- Witness for C5: two cells exactly rest-length (2) apart along the x-axis
receive zero force from a center spring of rest length 2. -/
theorem linear_spring_tick_spec_witness :
    ((cellAt ⟨2, 0⟩).position - cell0.position).length = (2 : ℝ)
    ∧ LinearSpring.tick ⟨2, 50⟩ cellForceAppl cell0 (cellAt ⟨2, 0⟩) =
        (cell0, cellAt ⟨2, 0⟩) :=
  have hlen : ((cellAt ⟨2, 0⟩).position - cell0.position).length = (2 : ℝ) := by
    show (Vec2d.length (⟨2, 0⟩ - Vec2d.zero)) = 2
    rw [Vec2d.sub_def]
    simp only [Vec2d.length, Vec2d.dot, Vec2d.zero]
    have h4 : ((2 : ℝ) - 0) * ((2 : ℝ) - 0) + ((0 : ℝ) - 0) * ((0 : ℝ) - 0)
        = (2 : ℝ) ^ 2 := by norm_num
    rw [h4, Real.sqrt_sq (by norm_num : (0 : ℝ) ≤ 2)]
  ⟨hlen, (linear_spring_tick_spec ⟨2, 50⟩ cell0 (cellAt ⟨2, 0⟩)).2.2 hlen⟩

/-- C4 (code behavior at the failing input): applying the torque `1` to a
lever with application offset `(1, 0)` over a fresh cell leaves the cell's
torque accumulator at `0` — not increased by the applied torque — because the
source forwards the converted force to `self.body.apply_force`, bypassing the
lever's own cross-product path; the cell only receives the force `(0, 1)`. -/
theorem lever_apply_torque_code_behavior :
    ((leverForceAppl cellForceAppl).apply_torque (cell0, ⟨1, 0⟩) 1).1.torque = 0
    ∧ ((leverForceAppl cellForceAppl).apply_torque (cell0, ⟨1, 0⟩) 1).1.force
        = ⟨0, 1⟩
    ∧ cell0.torque + 1 ≠ ((leverForceAppl cellForceAppl).apply_torque
        (cell0, ⟨1, 0⟩) 1).1.torque := by
  have hlen : Vec2d.length ⟨1, 0⟩ = 1 := by
    simp only [Vec2d.length, Vec2d.dot]
    have h1 : (1 : ℝ) * 1 + 0 * 0 = 1 := by norm_num
    rw [h1, Real.sqrt_one]
  have hcond : (Vec2d.length ⟨1, 0⟩ > 1e-10) := by rw [hlen]; norm_num
  have happ : (leverForceAppl cellForceAppl).apply_torque (cell0, ⟨1, 0⟩) 1
      = (cellForceAppl.apply_force cell0
          ((Vec2d.perp ⟨1, 0⟩ / Vec2d.length ⟨1, 0⟩) *
            ((1 : ℝ) / Vec2d.length ⟨1, 0⟩)), ⟨1, 0⟩) := by
    show (if Vec2d.length ⟨1, 0⟩ > 1e-10 then _ else _) = _
    rw [if_pos hcond]
  rw [happ]
  refine ⟨rfl, ?_, ?_⟩
  · show cell0.force + (Vec2d.perp ⟨1, 0⟩ / Vec2d.length ⟨1, 0⟩) *
        ((1 : ℝ) / Vec2d.length ⟨1, 0⟩) = ⟨0, 1⟩
    rw [hlen]
    simp only [cell0, Vec2d.zero, Vec2d.perp, Vec2d.sdiv_def, Vec2d.smul_def,
      Vec2d.add_def]
    norm_num
  · show cell0.torque + 1 ≠ cell0.torque
    simp only [cell0]
    norm_num

/-- C9 counterexample: the public constructor accepts equal endpoint ids —
`new(0, 0, 0, 0)` builds a connection with `id_a = id_b`. -/
theorem cellConnection_new_equal_ids :
    (CellConnection.new 0 0 0 0).id_a = (CellConnection.new 0 0 0 0).id_b := rfl

/-- C9 amended: `CellConnection::new` performs no validation: the resulting
fields are exactly the arguments, so the endpoints are distinct exactly when
the caller passes distinct ids. -/
theorem cellConnection_new_fields (ida : Nat) (aa : ℝ) (idb : Nat) (ab : ℝ) :
    (CellConnection.new ida aa idb ab).id_a = ida
    ∧ (CellConnection.new ida aa idb ab).id_b = idb
    ∧ ((CellConnection.new ida aa idb ab).id_a ≠
        (CellConnection.new ida aa idb ab).id_b ↔ ida ≠ idb) :=
  ⟨rfl, rfl, Iff.rfl⟩

end CellEvo

namespace CellEvo

/-- `Vec::swap_remove(i)` (used by `SimulationState::remove`'s purge loop):
overwrite position `i` with the last element, then pop the last element. -/
def swapRemove {α : Type} (l : List α) (i : Nat) : List α :=
  match l.getLast? with
  | Option.none => []
  | Option.some last => (l.set i last).dropLast

theorem take_set_of_le {α : Type} (l : List α) (i n : Nat) (a : α) (h : n ≤ i) :
    (l.set i a).take n = l.take n := by
  apply List.ext_getElem?
  intro j
  by_cases hj : j < n
  · rw [List.getElem?_take_of_lt hj, List.getElem?_take_of_lt hj,
      List.getElem?_set_ne (by omega)]
  · rw [List.getElem?_eq_none (by simp [List.length_take, List.length_set]; omega),
      List.getElem?_eq_none (by simp [List.length_take]; omega)]

theorem swapRemove_length {α : Type} (l : List α) (i : Nat) (hne : l ≠ []) :
    (swapRemove l i).length = l.length - 1 := by
  simp only [swapRemove, List.getLast?_eq_getLast l hne]
  simp [List.length_dropLast, List.length_set]

theorem swapRemove_getElem? {α : Type} (l : List α) (i j : Nat) (hne : l ≠ [])
    (hj : j < l.length - 1) :
    (swapRemove l i)[j]? = if j = i then l[l.length - 1]? else l[j]? := by
  simp only [swapRemove, List.getLast?_eq_getLast l hne]
  have hlow : j < ((l.set i (l.getLast hne)).dropLast).length := by
    simp [List.length_dropLast, List.length_set]
    omega
  rw [List.getElem?_eq_getElem hlow, List.getElem_dropLast]
  rcases eq_or_ne j i with rfl | hne2
  · rw [if_pos rfl, List.getElem_set_self (by simp [List.length_set]; omega),
      List.getElem?_eq_getElem (by omega : l.length - 1 < l.length)]
    exact congrArg Option.some (List.getLast_eq_getElem l hne)
  · rw [if_neg hne2, List.getElem_set_ne (Ne.symm hne2),
      List.getElem?_eq_getElem (by omega : j < l.length)]

theorem swapRemove_multiset {α : Type} (l : List α) (i : Nat) (h : i < l.length) :
    (l[i] ::ₘ (↑(swapRemove l i) : Multiset α)) = (↑l : Multiset α) := by
  have hne : l ≠ [] := List.ne_nil_of_length_pos (by omega)
  have hsw : swapRemove l i = (l.set i (l.getLast hne)).dropLast := by
    simp only [swapRemove, List.getLast?_eq_getLast l hne]
  have hlenset : (l.set i (l.getLast hne)).length = l.length :=
    List.length_set l i _
  have hsetne : l.set i (l.getLast hne) ≠ [] := by
    apply List.ne_nil_of_length_pos
    omega
  have hgl : (l.set i (l.getLast hne)).getLast hsetne = l.getLast hne := by
    have h1 : (l.set i (l.getLast hne)).getLast? =
        Option.some ((l.set i (l.getLast hne)).getLast hsetne) :=
      List.getLast?_eq_getLast _ hsetne
    have h2 : (l.set i (l.getLast hne)).getLast? =
        (l.set i (l.getLast hne))[(l.set i (l.getLast hne)).length - 1]? :=
      List.getLast?_eq_getElem? _
    rw [h2, hlenset] at h1
    rcases eq_or_ne i (l.length - 1) with heq | hne2
    · rw [← heq, List.getElem?_set_self (by omega)] at h1
      injection h1 with h1
      exact h1.symm
    · rw [List.getElem?_set_ne hne2,
        List.getElem?_eq_getElem (by omega : l.length - 1 < l.length)] at h1
      injection h1 with h1
      rw [← h1]
      exact (List.getLast_eq_getElem l hne).symm
  have hdecomp : (l.set i (l.getLast hne)).dropLast ++ [l.getLast hne]
      = l.set i (l.getLast hne) := by
    have hd := List.dropLast_concat_getLast hsetne
    rw [hgl] at hd
    exact hd
  have hsplit : l.set i (l.getLast hne) = l.take i ++ l.getLast hne :: l.drop (i + 1) :=
    List.set_eq_take_cons_drop _ h
  have hl : l = l.take i ++ l[i] :: l.drop (i + 1) := by
    have ht := List.take_append_drop i l
    rw [List.drop_eq_getElem_cons h] at ht
    exact ht.symm
  rw [hsw]
  apply add_right_cancel (b := ({l.getLast hne} : Multiset α))
  have hm1 : (↑((l.set i (l.getLast hne)).dropLast) : Multiset α) + {l.getLast hne}
      = ↑(l.set i (l.getLast hne)) := by
    conv_rhs => rw [← hdecomp]
    rfl
  have hm2 : (↑(l.set i (l.getLast hne)) : Multiset α)
      = ↑(List.take i l) + ({l.getLast hne} + ↑(List.drop (i + 1) l)) := by
    conv_lhs => rw [hsplit]
    rfl
  have hlm : (↑l : Multiset α)
      = ↑(List.take i l) + ({l[i]} + ↑(List.drop (i + 1) l)) := by
    conv_lhs => rw [hl]
    rfl
  rw [Multiset.cons_add, hm1, hm2, hlm]
  show ({l[i]} : Multiset α)
        + (↑(List.take i l) + ({l.getLast hne} + ↑(List.drop (i + 1) l)))
      = (↑(List.take i l) + ({l[i]} + ↑(List.drop (i + 1) l)))
        + {l.getLast hne}
  abel

end CellEvo

namespace CellEvo

/-- The backward purge loop of `SimulationState::remove`: `i` counts down
from the list length; each connection pointing toward `id` is removed with
`swap_remove` (whose filled-in element was already inspected, being past the
cursor). -/
def purgeConnections (id : Nat) : List CellConnection → Nat → List CellConnection
  | conns, 0 => conns
  | conns, i + 1 =>
    match conns[i]? with
    | Option.some c =>
      if c.points_toward id then purgeConnections id (swapRemove conns i) i
      else purgeConnections id conns i
    | Option.none => purgeConnections id conns i

/-- `SimulationState::remove(id)` (src/core/sim.rs): free arena slot `id`
(`none` models the out-of-bounds indexing panic) and purge all connections
pointing toward `id`. -/
def SimulationState.remove (s : SimulationState) (id : Nat) : Option SimulationState :=
  match s.cells.free id with
  | Option.none => Option.none
  | Option.some cells' =>
    Option.some { s with
      cells := cells'
      connections := purgeConnections id s.connections s.connections.length }

theorem purgeConnections_multiset (id : Nat) :
    ∀ (i : Nat) (conns : List CellConnection), i ≤ conns.length →
      (∀ j c, i ≤ j → conns[j]? = Option.some c → c.points_toward id = false) →
      (↑(purgeConnections id conns i) : Multiset CellConnection)
        = ↑((conns.take i).filter (fun c => ! c.points_toward id))
          + ↑(conns.drop i) := by
  intro i
  induction i with
  | zero =>
    intro conns _ _
    simp [purgeConnections]
  | succ n ih =>
    intro conns hle hclean
    have hn : n < conns.length := by omega
    have hne : conns ≠ [] := List.ne_nil_of_length_pos (by omega)
    have hg : conns[n]? = Option.some (conns[n]) := List.getElem?_eq_getElem hn
    simp only [purgeConnections, hg]
    by_cases hb : conns[n].points_toward id = true
    · rw [if_pos hb]
      have hlnsw : (swapRemove conns n).length = conns.length - 1 :=
        swapRemove_length conns n hne
      have hclean' : ∀ j c, n ≤ j → (swapRemove conns n)[j]? = Option.some c →
          c.points_toward id = false := by
        intro j c hj hget
        by_cases hjb : j < conns.length - 1
        · rw [swapRemove_getElem? conns n j hne hjb] at hget
          rcases eq_or_ne j n with rfl | hne2
          · rw [if_pos rfl,
              List.getElem?_eq_getElem (by omega : conns.length - 1 < conns.length)]
              at hget
            injection hget with hget
            exact hclean (conns.length - 1) c (by omega) (by
              rw [List.getElem?_eq_getElem
                (by omega : conns.length - 1 < conns.length), hget])
          · rw [if_neg hne2] at hget
            exact hclean j c (by omega) hget
        · rw [List.getElem?_eq_none (by omega)] at hget
          exact absurd hget (by simp)
      have ihr := ih (swapRemove conns n) (by omega) hclean'
      rw [ihr]
      have htake : (swapRemove conns n).take n = conns.take n := by
        simp only [swapRemove, List.getLast?_eq_getLast conns hne]
        rw [List.dropLast_eq_take, List.take_take, List.length_set,
          Nat.min_eq_left (by omega), take_set_of_le _ _ _ _ (Nat.le_refl n)]
      have hsm := swapRemove_multiset conns n hn
      have hswsplit : (↑(swapRemove conns n) : Multiset CellConnection)
          = ↑(conns.take n) + ↑((swapRemove conns n).drop n) := by
        conv_lhs => rw [← List.take_append_drop n (swapRemove conns n), htake]
        rfl
      have hcsplit : (↑conns : Multiset CellConnection)
          = ↑(conns.take n) + (conns[n] ::ₘ ↑(conns.drop (n + 1))) := by
        conv_lhs => rw [← List.take_append_drop n conns,
          List.drop_eq_getElem_cons hn]
        rfl
      have hdropeq : (↑((swapRemove conns n).drop n) : Multiset CellConnection)
          = ↑(conns.drop (n + 1)) := by
        have e := hsm
        rw [hswsplit, hcsplit, Multiset.add_cons] at e
        exact add_left_cancel ((Multiset.cons_inj_right _).mp e)
      have hfilter : (conns.take (n + 1)).filter (fun c => ! c.points_toward id)
          = (conns.take n).filter (fun c => ! c.points_toward id) := by
        rw [List.take_succ, hg]
        show ((conns.take n) ++ [conns[n]]).filter _ = _
        rw [List.filter_append]
        simp [List.filter_cons, hb]
      rw [htake, hdropeq, hfilter]
    · rw [if_neg hb]
      have hbf : conns[n].points_toward id = false := by
        revert hb
        cases conns[n].points_toward id <;> simp
      have hclean' : ∀ j c, n ≤ j → conns[j]? = Option.some c →
          c.points_toward id = false := by
        intro j c hj hget
        rcases eq_or_ne j n with rfl | hne2
        · rw [hg] at hget
          injection hget with hget
          rw [← hget]
          exact hbf
        · exact hclean j c (by omega) hget
      rw [ih conns (by omega) hclean']
      have hfilter : (conns.take (n + 1)).filter (fun c => ! c.points_toward id)
          = (conns.take n).filter (fun c => ! c.points_toward id) ++ [conns[n]] := by
        rw [List.take_succ, hg]
        show ((conns.take n) ++ [conns[n]]).filter _ = _
        rw [List.filter_append]
        simp [List.filter_cons, hbf]
      rw [hfilter, List.drop_eq_getElem_cons hn]
      show (↑((conns.take n).filter (fun c => ! c.points_toward id)) : Multiset _)
            + ({conns[n]} + ↑(conns.drop (n + 1)))
          = ((↑((conns.take n).filter (fun c => ! c.points_toward id)) : Multiset _)
            + {conns[n]}) + ↑(conns.drop (n + 1))
      rw [add_assoc]

/-- C8: `remove(id)` frees arena slot `id` (every other slot unchanged) and
deletes exactly the connections with `points_toward(id)`: afterwards no
connection references `id`, and the surviving connections are, as a multiset,
the connections that did not reference `id` (order may differ). -/
theorem remove_spec (s : SimulationState) (id : Nat)
    (h : id < s.cells.slots.length) :
    ∃ s', s.remove id = Option.some s'
      ∧ s'.cells.slots[id]? = Option.some HeapSlot.none
      ∧ (∀ j, j ≠ id → s'.cells.slots[j]? = s.cells.slots[j]?)
      ∧ s'.connections.Perm
          (s.connections.filter (fun c => ! c.points_toward id))
      ∧ ∀ c, c ∈ s'.connections → c.points_toward id = false := by
  have hfree : s.cells.free id = Option.some ⟨s.cells.slots.set id HeapSlot.none⟩ := by
    unfold Heap.free
    rw [if_pos h]
  refine ⟨{ s with
      cells := ⟨s.cells.slots.set id HeapSlot.none⟩
      connections := purgeConnections id s.connections s.connections.length },
    ?_, ?_, ?_, ?_, ?_⟩
  · unfold SimulationState.remove
    rw [hfree]
  · show (s.cells.slots.set id HeapSlot.none)[id]? = _
    rw [List.getElem?_set_self h]
  · intro j hj
    show (s.cells.slots.set id HeapSlot.none)[j]? = _
    rw [List.getElem?_set_ne (Ne.symm hj)]
  · show (purgeConnections id s.connections s.connections.length).Perm _
    apply Multiset.coe_eq_coe.mp
    rw [purgeConnections_multiset id s.connections.length s.connections
      (Nat.le_refl _) (by
        intro j c hj hget
        rw [List.getElem?_eq_none (by omega)] at hget
        exact absurd hget (by simp))]
    rw [List.take_length, List.drop_length]
    simp
  · intro c hc
    show c.points_toward id = false
    have hperm : (purgeConnections id s.connections s.connections.length).Perm
        (s.connections.filter (fun c => ! c.points_toward id)) := by
      apply Multiset.coe_eq_coe.mp
      rw [purgeConnections_multiset id s.connections.length s.connections
        (Nat.le_refl _) (by
          intro j c hj hget
          rw [List.getElem?_eq_none (by omega)] at hget
          exact absurd hget (by simp))]
      rw [List.take_length, List.drop_length]
      simp
    have := hperm.mem_iff.mp hc
    have := List.of_mem_filter this
    simpa using this

/-- Witness for C8 at a one-slot heap with one connection referencing id 0. -/
theorem remove_spec_witness :
    (0 : Nat) < (⟨[HeapSlot.allocated]⟩ : Heap Cell).slots.length
    ∧ ∃ s', SimulationState.remove
        ⟨⟨1⟩, ⟨[HeapSlot.allocated]⟩, [CellConnection.new 0 0 1 0]⟩ 0
          = Option.some s'
      ∧ s'.cells.slots[0]? = Option.some HeapSlot.none
      ∧ (∀ j, j ≠ 0 → s'.cells.slots[j]? =
          (⟨[HeapSlot.allocated]⟩ : Heap Cell).slots[j]?)
      ∧ s'.connections.Perm
          ([CellConnection.new 0 0 1 0].filter (fun c => ! c.points_toward 0))
      ∧ ∀ c, c ∈ s'.connections → c.points_toward 0 = false :=
  ⟨by simp,
    remove_spec ⟨⟨1⟩, ⟨[HeapSlot.allocated]⟩, [CellConnection.new 0 0 1 0]⟩ 0
      (by simp)⟩

end CellEvo

namespace CellEvo

/-- `get_mut_pair` succeeds exactly on distinct Occupied indices (helper). -/
theorem get_mut_pair_eq_some {T : Type} (h : Heap T) (a b : Nat) (va vb : T)
    (hab : a ≠ b) (hva : h.slots[a]? = Option.some (HeapSlot.some va))
    (hvb : h.slots[b]? = Option.some (HeapSlot.some vb)) :
    h.get_mut_pair a b = Option.some (va, vb) := by
  unfold Heap.get_mut_pair
  rcases Nat.lt_or_ge a b with hlt | hge
  · simp [hab, hlt, hva, hvb]
  · have hgt : b < a := Nat.lt_of_le_of_ne hge (Ne.symm hab)
    simp [hab, Nat.not_lt.mpr (Nat.le_of_lt hgt), hva, hvb]

/-- One iteration of the spring loop of `physics_pass` on one connection:
fetch both endpoint cells with `get_mut_pair` (`none` models its panics),
apply the center spring (rest length 2, stiffness 50), then the edge-point
spring (rest length 0, stiffness 50) through the two edge levers, and store
the mutated cells back in their slots. -/
noncomputable def connection_step (cells : Heap Cell) (conn : CellConnection) :
    Option (Heap Cell) :=
  match cells.get_mut_pair conn.id_a conn.id_b with
  | Option.none => Option.none
  | Option.some (ca, cb) =>
    let p1 := LinearSpring.tick ⟨2.0, 50.0⟩ cellForceAppl ca cb
    let p2 := LinearSpring.tick ⟨0.0, 50.0⟩ (leverForceAppl cellForceAppl)
      (p1.1.edge_lever conn.angle_a) (p1.2.edge_lever conn.angle_b)
    Option.some ((cells.writeSlot conn.id_a p2.1.1).writeSlot conn.id_b p2.2.1)

/-- The first loop of `physics_pass`: the spring pass over the connection
list, in order. -/
noncomputable def springs_pass (cells : Heap Cell) :
    List CellConnection → Option (Heap Cell)
  | [] => Option.some cells
  | conn :: rest =>
    match connection_step cells conn with
    | Option.none => Option.none
    | Option.some cells' => springs_pass cells' rest

/-- `flatten_iter_mut` with a per-cell update `f`: every Occupied slot is
updated in place, all other slots are untouched. -/
def mapOccupied {T : Type} (f : T → T) (slots : List (HeapSlot T)) :
    List (HeapSlot T) :=
  slots.map (fun s => match s with
    | HeapSlot.some v => HeapSlot.some (f v)
    | s => s)

/-- `SimulationState::physics_pass(dt)` exactly as the code performs it: the
spring loop over connections, then one loop over the cells that interleaves
viscous damping and integration per cell. -/
noncomputable def physics_pass (s : SimulationState) (dt : ℝ) :
    Option SimulationState :=
  match springs_pass s.cells s.connections with
  | Option.none => Option.none
  | Option.some cells' =>
    Option.some { s with
      cells := ⟨mapOccupied
        (fun c => (apply_viscous_force c s.context.viscosity).apply_force_integrate dt)
        cells'.slots⟩ }

/-- The reference step in the spec's words: all spring forces over all
connections, then all viscous forces over all cells, are fully accumulated
before any cell is integrated. -/
noncomputable def physics_pass_ref (s : SimulationState) (dt : ℝ) :
    Option SimulationState :=
  match springs_pass s.cells s.connections with
  | Option.none => Option.none
  | Option.some cells' =>
    Option.some { s with
      cells := ⟨mapOccupied (fun c => c.apply_force_integrate dt)
        (mapOccupied (fun c => apply_viscous_force c s.context.viscosity)
          cells'.slots)⟩ }

theorem mapOccupied_comp {T : Type} (f g : T → T) (slots : List (HeapSlot T)) :
    mapOccupied f (mapOccupied g slots) = mapOccupied (fun v => f (g v)) slots := by
  unfold mapOccupied
  rw [List.map_map]
  apply List.map_congr_left
  intro s _
  cases s <;> rfl

theorem lt_length_of_getElem? {α : Type} {l : List α} {i : Nat} {x : α}
    (h : l[i]? = Option.some x) : i < l.length := by
  by_contra hge
  rw [List.getElem?_eq_none (by omega)] at h
  exact absurd h (by simp)

theorem valueAt_isSome_iff {T : Type} (h : Heap T) (i : Nat) :
    (h.valueAt i).isSome = true ↔
      ∃ v, h.slots[i]? = Option.some (HeapSlot.some v) := by
  unfold Heap.valueAt
  rcases hg : h.slots[i]? with _ | sl
  · simp
  · cases sl <;> simp

theorem get_mut_pair_some_iff {T : Type} (h : Heap T) (a b : Nat) (va vb : T) :
    h.get_mut_pair a b = Option.some (va, vb) ↔
      a ≠ b ∧ h.slots[a]? = Option.some (HeapSlot.some va)
        ∧ h.slots[b]? = Option.some (HeapSlot.some vb) := by
  constructor
  · intro hp
    unfold Heap.get_mut_pair at hp
    by_cases hab : a = b
    · rw [if_pos hab] at hp
      exact absurd hp (by simp)
    · rw [if_neg hab] at hp
      by_cases hlt : a < b
      · rw [if_pos hlt] at hp
        rcases hga : h.slots[a]? with _ | sa <;> rw [hga] at hp
        · exact absurd hp (by simp)
        · rcases hgb : h.slots[b]? with _ | sb <;> rw [hgb] at hp
          · cases sa <;> exact absurd hp (by simp)
          · cases sa <;> cases sb <;>
              simp only [Option.some.injEq, Prod.mk.injEq] at hp <;>
              first
              | exact Option.noConfusion hp
              | (rw [← hp.1, ← hp.2]; exact ⟨hab, rfl, rfl⟩)
      · rw [if_neg hlt] at hp
        rcases hgb : h.slots[b]? with _ | sb <;> rw [hgb] at hp
        · exact absurd hp (by simp)
        · rcases hga : h.slots[a]? with _ | sa <;> rw [hga] at hp
          · cases sb <;> exact absurd hp (by simp)
          · cases sb <;> cases sa <;>
              simp only [Option.some.injEq, Prod.mk.injEq] at hp <;>
              first
              | exact Option.noConfusion hp
              | (rw [← hp.1, ← hp.2]; exact ⟨hab, rfl, rfl⟩)
  · rintro ⟨h1, h2, h3⟩
    exact get_mut_pair_eq_some h a b va vb h1 h2 h3

/-- `connection_step` preserves which slots are Occupied. -/
theorem connection_step_preserves (cells cells' : Heap Cell)
    (conn : CellConnection)
    (hstep : connection_step cells conn = Option.some cells') :
    ∀ j, (cells'.valueAt j).isSome = true ↔ (cells.valueAt j).isSome = true := by
  intro j
  unfold connection_step at hstep
  rcases hpair : cells.get_mut_pair conn.id_a conn.id_b with _ | p
  · rw [hpair] at hstep
    exact absurd hstep (by simp)
  · rw [hpair] at hstep
    obtain ⟨ca, cb⟩ := p
    obtain ⟨hab, hga, hgb⟩ := (get_mut_pair_some_iff cells conn.id_a conn.id_b ca cb).mp hpair
    have hla : conn.id_a < cells.slots.length := lt_length_of_getElem? hga
    have hlb : conn.id_b < cells.slots.length := lt_length_of_getElem? hgb
    simp only [Option.some.injEq] at hstep
    rw [← hstep]
    rw [valueAt_isSome_iff, valueAt_isSome_iff]
    show (∃ v, ((cells.slots.set conn.id_a _).set conn.id_b _)[j]?
        = Option.some (HeapSlot.some v)) ↔ _
    rcases eq_or_ne j conn.id_b with rfl | hjb
    · rw [List.getElem?_set_self (by rw [List.length_set]; omega)]
      constructor
      · intro _
        exact ⟨cb, hgb⟩
      · intro _
        exact ⟨_, rfl⟩
    · rw [List.getElem?_set_ne (Ne.symm hjb)]
      rcases eq_or_ne j conn.id_a with rfl | hja
      · rw [List.getElem?_set_self hla]
        constructor
        · intro _
          exact ⟨ca, hga⟩
        · intro _
          exact ⟨_, rfl⟩
      · rw [List.getElem?_set_ne (Ne.symm hja)]

theorem springs_pass_some (conns : List CellConnection) :
    ∀ (cells : Heap Cell),
      (∀ conn ∈ conns, conn.id_a ≠ conn.id_b
        ∧ (cells.valueAt conn.id_a).isSome = true
        ∧ (cells.valueAt conn.id_b).isSome = true) →
      ∃ cells', springs_pass cells conns = Option.some cells' := by
  induction conns with
  | nil =>
    intro cells _
    exact ⟨cells, rfl⟩
  | cons conn rest ih =>
    intro cells hvalid
    obtain ⟨hne, ha, hb⟩ := hvalid conn (List.mem_cons_self _ _)
    obtain ⟨va, hva⟩ := (valueAt_isSome_iff cells conn.id_a).mp ha
    obtain ⟨vb, hvb⟩ := (valueAt_isSome_iff cells conn.id_b).mp hb
    have hpair := get_mut_pair_eq_some cells conn.id_a conn.id_b va vb hne hva hvb
    have hstep : ∃ cells1, connection_step cells conn = Option.some cells1 := by
      unfold connection_step
      rw [hpair]
      exact ⟨_, rfl⟩
    obtain ⟨cells1, hstep⟩ := hstep
    obtain ⟨cells2, hrest⟩ := ih cells1 (fun c hc => by
      obtain ⟨h1, h2, h3⟩ := hvalid c (List.mem_cons_of_mem _ hc)
      exact ⟨h1, (connection_step_preserves cells cells1 conn hstep _).mpr h2,
        (connection_step_preserves cells cells1 conn hstep _).mpr h3⟩)
    refine ⟨cells2, ?_⟩
    show (match connection_step cells conn with
      | Option.none => Option.none
      | Option.some cells' => springs_pass cells' rest) = Option.some cells2
    rw [hstep]
    exact hrest

/-- C2: under the precondition that every connection's endpoints are distinct
and Occupied, `physics_pass(dt)` — whose second loop interleaves viscous
damping and integration per cell — produces exactly the same final state as
the reference two-phase step that accumulates all spring forces and then all
viscous forces before integrating any cell. -/
theorem physics_pass_spec (s : SimulationState) (dt : ℝ)
    (hvalid : ∀ conn ∈ s.connections, conn.id_a ≠ conn.id_b
      ∧ (s.cells.valueAt conn.id_a).isSome = true
      ∧ (s.cells.valueAt conn.id_b).isSome = true) :
    ∃ s', physics_pass s dt = Option.some s'
      ∧ physics_pass_ref s dt = Option.some s' := by
  obtain ⟨cells', hsp⟩ := springs_pass_some s.connections s.cells hvalid
  refine ⟨{ s with
      cells := ⟨mapOccupied
        (fun c => (apply_viscous_force c s.context.viscosity).apply_force_integrate dt)
        cells'.slots⟩ }, ?_, ?_⟩
  · unfold physics_pass
    rw [hsp]
  · unfold physics_pass_ref
    rw [hsp]
    show Option.some { s with
        cells := ⟨mapOccupied (fun c => c.apply_force_integrate dt)
          (mapOccupied (fun c => apply_viscous_force c s.context.viscosity)
            cells'.slots)⟩ }
      = _
    rw [mapOccupied_comp]

/-- Witness for C2: a state with no connections (the precondition holds
vacuously); both passes produce the same state. -/
theorem physics_pass_spec_witness :
    (∀ conn ∈ ([] : List CellConnection), conn.id_a ≠ conn.id_b
      ∧ ((⟨[]⟩ : Heap Cell).valueAt conn.id_a).isSome = true
      ∧ ((⟨[]⟩ : Heap Cell).valueAt conn.id_b).isSome = true)
    ∧ ∃ s', physics_pass ⟨⟨1⟩, ⟨[]⟩, []⟩ 1 = Option.some s'
        ∧ physics_pass_ref ⟨⟨1⟩, ⟨[]⟩, []⟩ 1 = Option.some s' :=
  ⟨by simp, physics_pass_spec ⟨⟨1⟩, ⟨[]⟩, []⟩ 1 (by simp)⟩

end CellEvo

namespace CellEvo

/-- `IdxPair` (src/utils/data.rs): a pair of indices, also used as a
`[start, end)` range. -/
structure IdxPair where
  a : Nat
  b : Nat
deriving DecidableEq

/-- `CSR` (src/utils/algorithms.rs): a flattened index array plus per-row
`[start, end)` ranges. -/
structure CSR where
  indices : List Nat
  indptr : List IdxPair
deriving DecidableEq

/-- One `degrees[i] += 1` update of `adjacent_from_connections`. -/
def bump (d : List Nat) (i : Nat) : List Nat :=
  d.set i (d.getD i 0 + 1)

/-- The degree loop of `adjacent_from_connections`: degrees start at 1 (the
self reference) and gain one per incident connection endpoint. -/
def degreesOf (connections : List IdxPair) (node_count : Nat) : List Nat :=
  connections.foldl (fun d conn => bump (bump d conn.a) conn.b)
    (List.replicate node_count 1)

/-- The offset loop of `adjacent_from_connections`: one `[offset,
offset+deg)` range per degree, offsets accumulating. -/
def indptrBuild : List Nat → Nat → List IdxPair
  | [], _ => []
  | deg :: rest, offset => IdxPair.mk offset (offset + deg) :: indptrBuild rest (offset + deg)

/-- One slot write of the index-filling loops: `indices[write_pos[node]] =
val; write_pos[node] += 1`. -/
def pushAt (st : List Nat × List Nat) (node val : Nat) : List Nat × List Nat :=
  (st.1.set (st.2.getD node 0) val, st.2.set node (st.2.getD node 0 + 1))

/-- `CSR::adjacent_from_connections` (src/utils/algorithms.rs): build
degrees, offsets and write positions, write each node's self-index first,
then both directions of every connection.  (`degrees.sum` is the final value
of the source's running `offset`.) -/
def CSR.adjacent_from_connections (connections : List IdxPair) (max_index : Nat) : CSR :=
  let node_count := max_index + 1
  let degrees := degreesOf connections node_count
  let indptr := indptrBuild degrees 0
  let total := degrees.sum
  let write_pos := indptr.map (fun p => p.a)
  let st1 := (List.range node_count).foldl
    (fun st node => pushAt st node node) (List.replicate total 0, write_pos)
  let st2 := connections.foldl
    (fun st conn => pushAt (pushAt st conn.a conn.b) conn.b conn.a) st1
  ⟨st2.1, indptr⟩

/-- The adjacency slice `indices[indptr[n].a .. indptr[n].b]` (`CSR::row`). -/
def CSR.row (csr : CSR) (n : Nat) : List Nat :=
  match csr.indptr[n]? with
  | Option.some p => (csr.indices.drop p.a).take (p.b - p.a)
  | Option.none => []

/-- The number of unvisited entries: the BFS termination measure counts
these. -/
def countFalse (v : List Bool) : Nat := v.count false

/-- The neighbor loop of one BFS iteration: unvisited neighbors are marked
visited and pushed on the queue. -/
def visitNeighbors (nbrs : List Nat) (qv : List Nat × List Bool) :
    List Nat × List Bool :=
  nbrs.foldl (fun qv nb =>
    if qv.2.getD nb true then qv
    else (qv.1 ++ [nb], qv.2.set nb true)) qv

/-- The `while let Some(node) = queue.pop_front()` loop of one BFS run: pop,
append the node to the output, visit its adjacency row.  `fuel` bounds the
number of iterations; each iteration strictly decreases `queue.length + 2 *
countFalse visited`, so any larger fuel makes the embedding agree with the
unbounded source loop. -/
def bfsLoop (adj : CSR) : Nat → List Nat → List Bool → List Nat →
    List Nat × List Bool
  | 0, _, visited, acc => (acc, visited)
  | fuel + 1, queue, visited, acc =>
    match queue with
    | [] => (acc, visited)
    | node :: rest =>
      let qv := visitNeighbors (adj.row node) (rest, visited)
      bfsLoop adj fuel qv.1 qv.2 (acc ++ [node])

/-- One iteration of the outer sweep of `groups_from_connections`: skip a
visited start node, otherwise run one BFS from it and push the group range. -/
def groupStep (adj : CSR) (st : List Nat × List IdxPair × List Bool)
    (start : Nat) : List Nat × List IdxPair × List Bool :=
  if st.2.2.getD start true then st
  else
    let visited' := st.2.2.set start true
    let r := bfsLoop adj (2 + 2 * countFalse visited') [start] visited' st.1
    (r.1, st.2.1 ++ [IdxPair.mk st.1.length r.1.length], r.2)

/-- `CSR::groups_from_connections` (src/utils/algorithms.rs): BFS connected
components over the self-looped adjacency, sweeping start nodes upward. -/
def CSR.groups_from_connections (connections : List IdxPair) (max_index : Nat) : CSR :=
  let adj := CSR.adjacent_from_connections connections max_index
  let st := (List.range (max_index + 1)).foldl (groupStep adj)
    ([], [], List.replicate (max_index + 1) false)
  ⟨st.1, st.2.1⟩

/-- The undirected edge relation of an edge list. -/
def edgeRel (connections : List IdxPair) (x y : Nat) : Prop :=
  ∃ c ∈ connections, (c.a = x ∧ c.b = y) ∨ (c.a = y ∧ c.b = x)

/-- Reachability in the undirected graph of an edge list. -/
def Reach (connections : List IdxPair) : Nat → Nat → Prop :=
  Relation.ReflTransGen (edgeRel connections)

/-- The per-node write list of the connection loop: for each connection in
order, `b` goes into `a`'s row and `a` into `b`'s row. -/
def gather (connections : List IdxPair) (n : Nat) : List Nat :=
  ((connections.flatMap (fun c => [(c.a, c.b), (c.b, c.a)])).filter
    (fun w => w.1 = n)).map Prod.snd

/-- Incidence count of node `n` in an edge list (self loops count twice). -/
def incCount (connections : List IdxPair) (n : Nat) : Nat :=
  (gather connections n).length

end CellEvo

namespace CellEvo

theorem bump_length (d : List Nat) (i : Nat) : (bump d i).length = d.length :=
  List.length_set d i _

theorem bump_getD (d : List Nat) (i j : Nat) :
    (bump d i).getD j 0 =
      if i = j ∧ i < d.length then d.getD j 0 + 1 else d.getD j 0 := by
  unfold bump
  by_cases hij : i = j
  · subst hij
    by_cases hlen : i < d.length
    · rw [if_pos ⟨rfl, hlen⟩]
      rw [List.getD_eq_getElem?_getD, List.getD_eq_getElem?_getD,
        List.getElem?_set_self hlen, List.getElem?_eq_getElem hlen]
      rfl
    · rw [if_neg (by omega), List.set_eq_of_length_le (by omega)]
  · rw [if_neg (by simp [hij])]
    rw [List.getD_eq_getElem?_getD, List.getD_eq_getElem?_getD,
      List.getElem?_set_ne hij]
    rw [List.getD_eq_getElem?_getD]

theorem gather_cons (c : IdxPair) (rest : List IdxPair) (n : Nat) :
    gather (c :: rest) n =
      ((if c.a = n then [c.b] else []) ++ (if c.b = n then [c.a] else []))
        ++ gather rest n := by
  unfold gather
  rw [List.flatMap_cons, List.filter_append, List.map_append]
  congr 1
  by_cases ha : c.a = n <;> by_cases hb : c.b = n <;>
    simp [List.filter, ha, hb]

theorem gather_nil (n : Nat) : gather [] n = [] := rfl

theorem incCount_cons (c : IdxPair) (rest : List IdxPair) (n : Nat) :
    incCount (c :: rest) n =
      ((if c.a = n then 1 else 0) + (if c.b = n then 1 else 0)) + incCount rest n := by
  unfold incCount
  rw [gather_cons, List.length_append, List.length_append]
  by_cases ha : c.a = n <;> by_cases hb : c.b = n <;> simp [ha, hb]

theorem degrees_foldl (conns : List IdxPair) :
    ∀ (d : List Nat) (n : Nat), n < d.length →
      (∀ c ∈ conns, c.a < d.length ∧ c.b < d.length) →
      (conns.foldl (fun d conn => bump (bump d conn.a) conn.b) d).getD n 0
        = d.getD n 0 + incCount conns n := by
  induction conns with
  | nil =>
    intro d n _ _
    show d.getD n 0 = d.getD n 0 + incCount [] n
    rw [show incCount [] n = 0 from rfl]
    omega
  | cons c rest ih =>
    intro d n hn hb
    obtain ⟨hca, hcb⟩ := hb c (List.mem_cons_self _ _)
    show (rest.foldl _ (bump (bump d c.a) c.b)).getD n 0 = _
    rw [ih (bump (bump d c.a) c.b) n
      (by rw [bump_length, bump_length]; omega)
      (fun c' hc' => by
        obtain ⟨h1, h2⟩ := hb c' (List.mem_cons_of_mem _ hc')
        rw [bump_length, bump_length]
        exact ⟨h1, h2⟩)]
    rw [bump_getD, bump_getD, bump_length, incCount_cons]
    by_cases h1 : c.a = n <;> by_cases h2 : c.b = n <;>
      simp [h1, h2, hca, hcb, hn] <;> omega

theorem degreesOf_length (conns : List IdxPair) (nc : Nat) :
    (degreesOf conns nc).length = nc := by
  unfold degreesOf
  have : ∀ (l : List IdxPair) (d : List Nat),
      (l.foldl (fun d conn => bump (bump d conn.a) conn.b) d).length = d.length := by
    intro l
    induction l with
    | nil => intro d; rfl
    | cons c rest ih =>
      intro d
      show (rest.foldl _ (bump (bump d c.a) c.b)).length = _
      rw [ih, bump_length, bump_length]
  rw [this, List.length_replicate]

theorem degreesOf_getD (conns : List IdxPair) (nc : Nat) (n : Nat) (hn : n < nc)
    (hb : ∀ c ∈ conns, c.a < nc ∧ c.b < nc) :
    (degreesOf conns nc).getD n 0 = 1 + incCount conns n := by
  unfold degreesOf
  rw [degrees_foldl conns (List.replicate nc 1) n (by simp; omega)
    (fun c hc => by simpa using hb c hc)]
  congr 1
  rw [List.getD_eq_getElem?_getD, List.getElem?_eq_getElem (by simp; omega)]
  simp

theorem indptrBuild_length : ∀ (degs : List Nat) (off : Nat),
    (indptrBuild degs off).length = degs.length := by
  intro degs
  induction degs with
  | nil => intro off; rfl
  | cons d rest ih =>
    intro off
    show (IdxPair.mk off (off + d) :: indptrBuild rest (off + d)).length = _
    rw [List.length_cons, ih, List.length_cons]

theorem indptrBuild_getElem? : ∀ (degs : List Nat) (off g : Nat), g < degs.length →
    (indptrBuild degs off)[g]? =
      Option.some (IdxPair.mk (off + (degs.take g).sum)
        (off + (degs.take (g + 1)).sum)) := by
  intro degs
  induction degs with
  | nil => intro off g hg; simp at hg
  | cons d rest ih =>
    intro off g hg
    show (IdxPair.mk off (off + d) :: indptrBuild rest (off + d))[g]? = _
    cases g with
    | zero =>
      rw [List.getElem?_cons_zero]
      simp
    | succ g' =>
      rw [List.getElem?_cons_succ, ih (off + d) g' (by simp at hg; omega)]
      congr 2 <;> simp <;> omega

theorem sum_take_succ (l : List Nat) (n : Nat) (hn : n < l.length) :
    (l.take (n + 1)).sum = (l.take n).sum + l.getD n 0 := by
  rw [List.take_succ, List.sum_append, List.getElem?_eq_getElem hn]
  rw [List.getD_eq_getElem?_getD, List.getElem?_eq_getElem hn]
  simp

theorem sum_take_mono (l : List Nat) (m n : Nat) (h : m ≤ n) :
    (l.take m).sum ≤ (l.take n).sum := by
  rw [show n = m + (n - m) by omega, List.take_add, List.sum_append]
  omega

theorem sum_take_le_sum (l : List Nat) (n : Nat) : (l.take n).sum ≤ l.sum := by
  conv_rhs => rw [← List.take_append_drop n l]
  rw [List.sum_append]
  omega

end CellEvo

namespace CellEvo

theorem getD_set_self {α : Type} (l : List α) (i : Nat) (x d : α)
    (h : i < l.length) : (l.set i x).getD i d = x := by
  rw [List.getD_eq_getElem?_getD, List.getElem?_set_self h]
  rfl

theorem getD_set_ne {α : Type} (l : List α) (i j : Nat) (x d : α)
    (h : i ≠ j) : (l.set i x).getD j d = l.getD j d := by
  rw [List.getD_eq_getElem?_getD, List.getElem?_set_ne h,
    ← List.getD_eq_getElem?_getD]

theorem getElem?_cons_pos {α : Type} (a : α) (l : List α) (t : Nat) (h : 0 < t) :
    (a :: l)[t]? = l[t - 1]? := by
  cases t with
  | zero => omega
  | succ u =>
    rw [List.getElem?_cons_succ]
    simp

theorem pushAt_run (base deg : Nat → Nat) (nc total : Nat)
    (hdisj : ∀ n m, n < m → m < nc → base n + deg n ≤ base m)
    (hcap : ∀ n, n < nc → base n + deg n ≤ total) :
    ∀ (W : List (Nat × Nat)) (ind wp : List Nat),
      ind.length = total →
      wp.length = nc →
      (∀ w ∈ W, w.1 < nc) →
      (∀ n, n < nc → base n ≤ wp.getD n 0
        ∧ wp.getD n 0 + (W.filter (fun w => w.1 = n)).length ≤ base n + deg n) →
      (W.foldl (fun st w => pushAt st w.1 w.2) (ind, wp)).1.length = total
      ∧ (W.foldl (fun st w => pushAt st w.1 w.2) (ind, wp)).2.length = nc
      ∧ (∀ n, n < nc →
          (W.foldl (fun st w => pushAt st w.1 w.2) (ind, wp)).2.getD n 0
            = wp.getD n 0 + (W.filter (fun w => w.1 = n)).length)
      ∧ (∀ n, n < nc → ∀ t, wp.getD n 0 + t < base n + deg n →
          (W.foldl (fun st w => pushAt st w.1 w.2) (ind, wp)).1[wp.getD n 0 + t]?
            = if t < (W.filter (fun w => w.1 = n)).length
              then ((W.filter (fun w => w.1 = n)).map Prod.snd)[t]?
              else ind[wp.getD n 0 + t]?)
      ∧ (∀ j, (∀ n, n < nc → ¬ (wp.getD n 0 ≤ j ∧ j < base n + deg n)) →
          (W.foldl (fun st w => pushAt st w.1 w.2) (ind, wp)).1[j]? = ind[j]?) := by
  intro W
  induction W with
  | nil =>
    intro ind wp hind hwp _ _
    refine ⟨hind, hwp, fun n _ => by simp, fun n _ t _ => ?_, fun j _ => rfl⟩
    rw [if_neg (by simp)]
    rfl
  | cons w rest ih =>
    intro ind wp hind hwp hW hwin
    have ha : w.1 < nc := hW w (List.mem_cons_self _ _)
    have hfc : (w :: rest).filter (fun x => x.1 = w.1)
        = w :: rest.filter (fun x => x.1 = w.1) := by
      rw [List.filter_cons, if_pos (by simp)]
    obtain ⟨hbase_a, hcap_a⟩ := hwin w.1 ha
    have hlen_a : (rest.filter (fun x => x.1 = w.1)).length + 1
        = ((w :: rest).filter (fun x => x.1 = w.1)).length := by
      rw [hfc, List.length_cons]
    have hwpa_lt : wp.getD w.1 0 < base w.1 + deg w.1 := by omega
    have hwpa_total : wp.getD w.1 0 < total := by
      have := hcap w.1 ha
      omega
    have hstep : (w :: rest).foldl (fun st x => pushAt st x.1 x.2) (ind, wp)
        = rest.foldl (fun st x => pushAt st x.1 x.2)
          (ind.set (wp.getD w.1 0) w.2, wp.set w.1 (wp.getD w.1 0 + 1)) := rfl
    -- region containment for positions in a window
    have hregion : ∀ n, n < nc → ∀ j, wp.getD n 0 ≤ j → j < base n + deg n →
        base n ≤ j := by
      intro n hn j h1 h2
      have := (hwin n hn).1
      omega
    have hdisjoint : ∀ n m j, n < nc → m < nc → n ≠ m →
        wp.getD n 0 ≤ j → j < base n + deg n →
        ¬ (wp.getD m 0 ≤ j ∧ j < base m + deg m) := by
      intro n m j hn hm hnm h1 h2 ⟨h3, h4⟩
      have hbn : base n ≤ j := hregion n hn j h1 h2
      have hbm : base m ≤ j := hregion m hm j h3 h4
      rcases Nat.lt_trichotomy n m with hlt | heq | hgt
      · have := hdisj n m hlt hm
        omega
      · exact hnm heq
      · have := hdisj m n hgt hn
        omega
    have ih' := ih (ind.set (wp.getD w.1 0) w.2) (wp.set w.1 (wp.getD w.1 0 + 1))
      (by rw [List.length_set]; exact hind)
      (by rw [List.length_set]; exact hwp)
      (fun x hx => hW x (List.mem_cons_of_mem _ hx))
      (by
        intro n hn
        rcases eq_or_ne n w.1 with rfl | hne
        · rw [getD_set_self wp w.1 _ 0 (by omega)]
          constructor
          · omega
          · omega
        · rw [getD_set_ne wp w.1 n _ 0 (Ne.symm hne)]
          have hfil : rest.filter (fun x => x.1 = n)
              = (w :: rest).filter (fun x => x.1 = n) := by
            rw [List.filter_cons, if_neg (by simp [hne.symm])]
          rw [hfil]
          exact hwin n hn)
    obtain ⟨L1, L2, WPv, CONT, UNT⟩ := ih'
    rw [hstep]
    refine ⟨L1, L2, ?_, ?_, ?_⟩
    · intro n hn
      rcases eq_or_ne n w.1 with rfl | hne
      · rw [WPv w.1 hn, getD_set_self wp w.1 _ 0 (by omega), ← hlen_a]
        omega
      · rw [WPv n hn, getD_set_ne wp w.1 n _ 0 (Ne.symm hne)]
        have hfil : rest.filter (fun x => x.1 = n)
            = (w :: rest).filter (fun x => x.1 = n) := by
          rw [List.filter_cons, if_neg (by simp [hne.symm])]
        rw [hfil]
    · intro n hn t ht
      rcases eq_or_ne n w.1 with rfl | hne
      · rcases Nat.eq_zero_or_pos t with rfl | htpos
        · simp only [Nat.add_zero]
          rw [UNT (wp.getD w.1 0) (by
            intro m hm
            rcases eq_or_ne m w.1 with rfl | hmn
            · rw [getD_set_self wp w.1 _ 0 (by omega)]
              omega
            · rw [getD_set_ne wp w.1 m _ 0 hmn.symm]
              exact fun hcon => hdisjoint w.1 m (wp.getD w.1 0) hn hm hmn.symm
                (Nat.le_refl _) hwpa_lt hcon)]
          rw [List.getElem?_set_self (by omega), if_pos (by omega)]
          rw [hfc]
          simp
        · have hpos : wp.getD w.1 0 + t
              = (wp.set w.1 (wp.getD w.1 0 + 1)).getD w.1 0 + (t - 1) := by
            rw [getD_set_self wp w.1 _ 0 (by omega)]
            omega
          rw [hpos, CONT w.1 hn (t - 1) (by
            rw [getD_set_self wp w.1 _ 0 (by omega)]
            omega)]
          rw [getD_set_self wp w.1 _ 0 (by omega)]
          by_cases hcase : t - 1 < (rest.filter (fun x => x.1 = w.1)).length
          · rw [if_pos hcase, if_pos (by omega), hfc]
            rw [show (w :: rest.filter (fun x => x.1 = w.1)).map Prod.snd
              = w.2 :: (rest.filter (fun x => x.1 = w.1)).map Prod.snd from rfl]
            rw [getElem?_cons_pos w.2 _ t htpos]
          · rw [if_neg hcase, if_neg (by rw [← hlen_a]; omega)]
            rw [show wp.getD w.1 0 + 1 + (t - 1) = wp.getD w.1 0 + t by omega]
            rw [List.getElem?_set_ne (by omega)]
      · have hwse : (wp.set w.1 (wp.getD w.1 0 + 1)).getD n 0 = wp.getD n 0 :=
          getD_set_ne wp w.1 n _ 0 (Ne.symm hne)
        have := CONT n hn t (by rw [hwse]; omega)
        rw [hwse] at this
        rw [this]
        have hfil : rest.filter (fun x => x.1 = n)
            = (w :: rest).filter (fun x => x.1 = n) := by
          rw [List.filter_cons, if_neg (by simp [hne.symm])]
        rw [hfil, List.getElem?_set_ne (by
          have h1 : base n ≤ wp.getD n 0 + t := by
            have := (hwin n hn).1
            omega
          have := hdisjoint n w.1 (wp.getD n 0 + t) hn ha hne (by omega) ht
          intro heq
          exact this ⟨by omega, by omega⟩)]
    · intro j hj
      rw [UNT j (by
        intro m hm
        rcases eq_or_ne m w.1 with rfl | hmn
        · rw [getD_set_self wp w.1 _ 0 (by omega)]
          have := hj w.1 hm
          omega
        · rw [getD_set_ne wp w.1 m _ 0 (Ne.symm hmn)]
          exact hj m hm)]
      rw [List.getElem?_set_ne (by
        have := hj w.1 ha
        intro heq
        exact this ⟨by omega, by omega⟩)]

end CellEvo

namespace CellEvo


theorem range_pairs_filter : ∀ (nc n : Nat),
    ((List.range nc).map (fun k => (k, k))).filter (fun w => w.1 = n)
      = if n < nc then [(n, n)] else [] := by
  intro nc
  induction nc with
  | zero => intro n; simp
  | succ m ih =>
    intro n
    rw [List.range_succ, List.map_append, List.filter_append, ih n]
    simp only [List.map_cons, List.map_nil, List.filter_cons, List.filter_nil]
    by_cases h2 : n = m
    · subst h2
      simp
    · by_cases h1 : n < m
      · have h3 : n < m + 1 := by omega
        have h4 : m ≠ n := by omega
        simp [h1, h3, h4]
      · have h3 : ¬ n < m + 1 := by omega
        have h4 : m ≠ n := by omega
        simp [h1, h3, h4]

theorem foldl_conn_writes (conns : List IdxPair) :
    ∀ (st : List Nat × List Nat),
      conns.foldl (fun st conn => pushAt (pushAt st conn.a conn.b) conn.b conn.a) st
        = (conns.flatMap (fun c => [(c.a, c.b), (c.b, c.a)])).foldl
            (fun st w => pushAt st w.1 w.2) st := by
  induction conns with
  | nil => intro st; rfl
  | cons c rest ih =>
    intro st
    rw [List.flatMap_cons, List.foldl_append]
    exact ih _

/-- Start offset of node `m`'s row in the adjacency CSR. -/
def rowBase (degs : List Nat) (m : Nat) : Nat := (degs.take m).sum

/-- Length of node `m`'s row in the adjacency CSR. -/
def rowDeg (degs : List Nat) (m : Nat) : Nat := degs.getD m 0

end CellEvo

namespace CellEvo

/-- The adjacency row of an in-bounds node is its self-index followed by the
neighbor writes of the connection loop, in order. -/
theorem adjacent_row (conns : List IdxPair) (max_index : Nat)
    (hb : ∀ c ∈ conns, c.a ≤ max_index ∧ c.b ≤ max_index)
    (n : Nat) (hn : n ≤ max_index) :
    (CSR.adjacent_from_connections conns max_index).row n = n :: gather conns n := by
  have hb' : ∀ c ∈ conns, c.a < max_index + 1 ∧ c.b < max_index + 1 := by
    intro c hc
    have := hb c hc
    omega
  set nc := max_index + 1 with hnc
  set degs := degreesOf conns nc with hdegs
  have hdlen : degs.length = nc := degreesOf_length conns nc
  have hdeg_val : ∀ m, m < nc → rowDeg degs m = 1 + incCount conns m := by
    intro m hm
    exact degreesOf_getD conns nc m hm hb'
  have hdisj : ∀ a c, a < c → c < nc → rowBase degs a + rowDeg degs a
      ≤ rowBase degs c := by
    intro a c h1 h2
    unfold rowBase rowDeg
    rw [← sum_take_succ degs a (by omega)]
    exact sum_take_mono degs (a + 1) c (by omega)
  have hcap : ∀ a, a < nc → rowBase degs a + rowDeg degs a ≤ degs.sum := by
    intro a h1
    unfold rowBase rowDeg
    rw [← sum_take_succ degs a (by omega)]
    exact sum_take_le_sum degs (a + 1)
  have hwp0_len : ((indptrBuild degs 0).map (fun p => p.a)).length = nc := by
    rw [List.length_map, indptrBuild_length, hdlen]
  have hwp0_val : ∀ m, m < nc →
      ((indptrBuild degs 0).map (fun p => p.a)).getD m 0 = rowBase degs m := by
    intro m hm
    rw [List.getD_eq_getElem?_getD, List.getElem?_map,
      indptrBuild_getElem? degs 0 m (by omega)]
    unfold rowBase
    simp
  have hglen : ∀ m, ((conns.flatMap (fun c => [(c.a, c.b), (c.b, c.a)])).filter
      (fun w => w.1 = m)).length = incCount conns m := by
    intro m
    unfold incCount gather
    rw [List.length_map]
  have hA := pushAt_run (rowBase degs) (rowDeg degs) nc degs.sum hdisj hcap
    ((List.range nc).map (fun k => (k, k)))
    (List.replicate degs.sum 0) ((indptrBuild degs 0).map (fun p => p.a))
    (by simp) hwp0_len
    (by
      intro w hw
      obtain ⟨k, hk, rfl⟩ := List.mem_map.mp hw
      simpa using List.mem_range.mp hk)
    (by
      intro m hm
      rw [hwp0_val m hm, range_pairs_filter nc m, if_pos hm]
      refine ⟨Nat.le_refl _, ?_⟩
      rw [hdeg_val m hm]
      simp only [List.length_cons, List.length_nil]
      omega)
  obtain ⟨A1, A2, AW, AC, AU⟩ := hA
  have hB := pushAt_run (rowBase degs) (rowDeg degs) nc degs.sum hdisj hcap
    (conns.flatMap (fun c => [(c.a, c.b), (c.b, c.a)]))
    (((List.range nc).map (fun k => (k, k))).foldl
      (fun st w => pushAt st w.1 w.2)
      (List.replicate degs.sum 0, (indptrBuild degs 0).map (fun p => p.a))).1
    (((List.range nc).map (fun k => (k, k))).foldl
      (fun st w => pushAt st w.1 w.2)
      (List.replicate degs.sum 0, (indptrBuild degs 0).map (fun p => p.a))).2
    A1 A2
    (by
      intro w hw
      obtain ⟨c, hc, hw2⟩ := List.mem_flatMap.mp hw
      simp only [List.mem_cons, List.mem_singleton] at hw2
      obtain ⟨h1, h2⟩ := hb' c hc
      rcases hw2 with rfl | rfl | h
      · exact h1
      · exact h2
      · simp at h)
    (by
      intro m hm
      rw [AW m hm, hwp0_val m hm, range_pairs_filter nc m, if_pos hm, hglen m,
        hdeg_val m hm]
      simp only [List.length_cons, List.length_nil]
      omega)
  obtain ⟨B1, B2, BW, BC, BU⟩ := hB
  -- name the final indices array
  have hrowlen : ∀ m, m < nc → rowBase degs m + rowDeg degs m ≤ degs.sum :=
    hcap
  have hadj : CSR.adjacent_from_connections conns max_index
      = ⟨(((conns.flatMap (fun c => [(c.a, c.b), (c.b, c.a)]))).foldl
          (fun st w => pushAt st w.1 w.2)
          (((List.range nc).map (fun k => (k, k))).foldl
            (fun st w => pushAt st w.1 w.2)
            (List.replicate degs.sum 0, (indptrBuild degs 0).map (fun p => p.a)))).1,
        indptrBuild degs 0⟩ := by
    show (⟨(conns.foldl
        (fun st conn => pushAt (pushAt st conn.a conn.b) conn.b conn.a)
        ((List.range nc).foldl (fun st node => pushAt st node node)
          (List.replicate degs.sum 0, (indptrBuild degs 0).map (fun p => p.a)))).1,
      indptrBuild degs 0⟩ : CSR) = _
    rw [foldl_conn_writes, List.foldl_map]
  rw [hadj]
  have hn' : n < nc := by omega
  have hip : (indptrBuild degs 0)[n]? = Option.some
      (IdxPair.mk (rowBase degs n) (rowBase degs n + rowDeg degs n)) := by
    rw [indptrBuild_getElem? degs 0 n (by omega)]
    congr 2
    · rw [Nat.zero_add]
      rfl
    · rw [Nat.zero_add, sum_take_succ degs n (by omega)]
      rfl
  unfold CSR.row
  rw [show (⟨_, indptrBuild degs 0⟩ : CSR).indptr = indptrBuild degs 0 from rfl,
    hip]
  show ((_ : List Nat).drop (rowBase degs n)).take
    (rowBase degs n + rowDeg degs n - rowBase degs n) = _
  rw [show rowBase degs n + rowDeg degs n - rowBase degs n = rowDeg degs n by omega]
  apply List.ext_getElem?
  intro t
  by_cases ht : t < rowDeg degs n
  · rw [List.getElem?_take_of_lt ht, List.getElem?_drop]
    rcases Nat.eq_zero_or_pos t with rfl | htpos
    · have hbase_unt := BU (rowBase degs n) (by
        intro m hm hcon
        obtain ⟨hc1, hc2⟩ := hcon
        have hw := AW m hm
        rw [hwp0_val m hm, range_pairs_filter nc m, if_pos hm] at hw
        simp only [List.length_cons, List.length_nil] at hw
        rcases Nat.lt_trichotomy m n with hlt | heq | hgt
        · have := hdisj m n hlt hn'
          omega
        · subst heq
          omega
        · have := hdisj n m hgt hm
          have h1 : 1 ≤ rowDeg degs n := by
            rw [hdeg_val n hn']
            omega
          omega)
      have hself := AC n hn' 0 (by
        rw [hwp0_val n hn', hdeg_val n hn']
        omega)
      rw [hwp0_val n hn', range_pairs_filter nc n, if_pos hn'] at hself
      simp only [Nat.add_zero] at hself hbase_unt ⊢
      rw [hbase_unt, hself, if_pos (by simp)]
      simp
    · have hsucc := BC n hn' (t - 1) (by
        rw [AW n hn', hwp0_val n hn', range_pairs_filter nc n, if_pos hn']
        simp only [List.length_cons, List.length_nil]
        omega)
      rw [AW n hn', hwp0_val n hn', range_pairs_filter nc n, if_pos hn',
        hglen n] at hsucc
      simp only [List.length_cons, List.length_nil] at hsucc
      rw [show rowBase degs n + 1 + (t - 1) = rowBase degs n + t by omega]
        at hsucc
      rw [hsucc, if_pos (by
        rw [hdeg_val n hn'] at ht
        omega)]
      rw [show ((conns.flatMap (fun c => [(c.a, c.b), (c.b, c.a)])).filter
          (fun w => w.1 = n)).map Prod.snd = gather conns n from rfl]
      rw [getElem?_cons_pos n (gather conns n) t htpos]
  · rw [List.getElem?_eq_none, List.getElem?_eq_none]
    · rw [List.length_cons]
      have hd := hdeg_val n hn'
      unfold incCount at hd
      omega
    · rw [List.length_take, List.length_drop]
      omega

end CellEvo

namespace CellEvo

theorem edgeRel_symm (conns : List IdxPair) (x y : Nat)
    (h : edgeRel conns x y) : edgeRel conns y x := by
  obtain ⟨c, hc, hcase⟩ := h
  exact ⟨c, hc, hcase.symm⟩

theorem gather_mem (conns : List IdxPair) (n m : Nat) :
    m ∈ gather conns n ↔ edgeRel conns n m := by
  unfold gather edgeRel
  rw [List.mem_map]
  constructor
  · rintro ⟨w, hw, rfl⟩
    obtain ⟨hw1, hw2⟩ := List.mem_filter.mp hw
    obtain ⟨c, hc, hcw⟩ := List.mem_flatMap.mp hw1
    simp only [List.mem_cons, List.mem_singleton] at hcw
    simp only [decide_eq_true_eq] at hw2
    rcases hcw with rfl | rfl | h
    · exact ⟨c, hc, Or.inl ⟨hw2, rfl⟩⟩
    · exact ⟨c, hc, Or.inr ⟨rfl, hw2⟩⟩
    · simp at h
  · rintro ⟨c, hc, hcase⟩
    rcases hcase with ⟨h1, h2⟩ | ⟨h1, h2⟩
    · refine ⟨(c.a, c.b), List.mem_filter.mpr ⟨?_, by simp [h1]⟩, h2⟩
      exact List.mem_flatMap.mpr ⟨c, hc, by simp⟩
    · refine ⟨(c.b, c.a), List.mem_filter.mpr ⟨?_, by simp [h2]⟩, h1⟩
      exact List.mem_flatMap.mpr ⟨c, hc, by simp⟩

theorem row_mem (conns : List IdxPair) (max_index : Nat)
    (hb : ∀ c ∈ conns, c.a ≤ max_index ∧ c.b ≤ max_index)
    (n : Nat) (hn : n ≤ max_index) (m : Nat) :
    m ∈ (CSR.adjacent_from_connections conns max_index).row n
      ↔ (m = n ∨ edgeRel conns n m) := by
  rw [adjacent_row conns max_index hb n hn, List.mem_cons, gather_mem]

theorem edgeRel_bound (conns : List IdxPair) (max_index : Nat)
    (hb : ∀ c ∈ conns, c.a ≤ max_index ∧ c.b ≤ max_index)
    (n m : Nat) (h : edgeRel conns n m) : m ≤ max_index := by
  obtain ⟨c, hc, hcase⟩ := h
  obtain ⟨h1, h2⟩ := hb c hc
  rcases hcase with ⟨_, rfl⟩ | ⟨rfl, _⟩
  · exact h2
  · exact h1

theorem row_bound (conns : List IdxPair) (max_index : Nat)
    (hb : ∀ c ∈ conns, c.a ≤ max_index ∧ c.b ≤ max_index)
    (n : Nat) (hn : n ≤ max_index) (m : Nat)
    (hm : m ∈ (CSR.adjacent_from_connections conns max_index).row n) :
    m ≤ max_index := by
  rcases (row_mem conns max_index hb n hn m).mp hm with rfl | h
  · exact hn
  · exact edgeRel_bound conns max_index hb n m h

theorem getD_eq_of_lt {α : Type} (l : List α) (d1 d2 : α) (n : Nat)
    (h : n < l.length) : l.getD n d1 = l.getD n d2 := by
  rw [List.getD_eq_getElem?_getD, List.getD_eq_getElem?_getD,
    List.getElem?_eq_getElem h]
  rfl

theorem countFalse_set_true (v : List Bool) :
    ∀ (n : Nat), n < v.length → v.getD n false = false →
      countFalse (v.set n true) + 1 = countFalse v := by
  induction v with
  | nil => intro n h _; simp at h
  | cons b rest ih =>
    intro n hlen hfalse
    cases n with
    | zero =>
      obtain rfl : b = false := hfalse
      show countFalse (true :: rest) + 1 = countFalse (false :: rest)
      unfold countFalse
      rw [List.count_cons, List.count_cons]
      simp
    | succ n' =>
      show countFalse (b :: rest.set n' true) + 1 = countFalse (b :: rest)
      unfold countFalse
      rw [List.count_cons, List.count_cons]
      have := ih n' (by simp at hlen; omega) hfalse
      unfold countFalse at this
      omega

theorem visitNeighbors_spec (maxI : Nat) :
    ∀ (nbrs : List Nat) (q : List Nat) (v : List Bool),
      v.length = maxI + 1 →
      (∀ m ∈ nbrs, m ≤ maxI) →
      ∃ newq : List Nat,
        (visitNeighbors nbrs (q, v)).1 = q ++ newq
        ∧ (visitNeighbors nbrs (q, v)).2.length = maxI + 1
        ∧ newq.Nodup
        ∧ (∀ m, m ∈ newq ↔ (m ∈ nbrs ∧ v.getD m false = false))
        ∧ (∀ m, (visitNeighbors nbrs (q, v)).2.getD m false = true
            ↔ (v.getD m false = true ∨ m ∈ newq))
        ∧ countFalse (visitNeighbors nbrs (q, v)).2 + newq.length = countFalse v
        ∧ (∀ m ∈ newq, m ≤ maxI) := by
  intro nbrs
  induction nbrs with
  | nil =>
    intro q v hv _
    exact ⟨[], by simp [visitNeighbors], by simpa [visitNeighbors] using hv,
      List.nodup_nil, by simp, by simp [visitNeighbors], by simp [visitNeighbors],
      by simp⟩
  | cons nb rest ih =>
    intro q v hv hbnd
    have hnb : nb ≤ maxI := hbnd nb (List.mem_cons_self _ _)
    have hnblen : nb < v.length := by omega
    have hstep : visitNeighbors (nb :: rest) (q, v)
        = visitNeighbors rest (if v.getD nb true then (q, v)
            else (q ++ [nb], v.set nb true)) := by
      unfold visitNeighbors
      rfl
    have hgd : v.getD nb true = v.getD nb false := getD_eq_of_lt v true false nb hnblen
    by_cases hmark : v.getD nb false = true
    · rw [hstep, if_pos (by rw [hgd]; exact hmark)]
      obtain ⟨newq, h1, h2, h3, h4, h5, h6, h7⟩ := ih q v hv
        (fun m hm => hbnd m (List.mem_cons_of_mem _ hm))
      refine ⟨newq, h1, h2, h3, fun m => ?_, h5, h6, h7⟩
      rw [h4 m]
      constructor
      · rintro ⟨hm1, hm2⟩
        exact ⟨List.mem_cons_of_mem _ hm1, hm2⟩
      · rintro ⟨hm1, hm2⟩
        rcases List.mem_cons.mp hm1 with rfl | hm1'
        · rw [hmark] at hm2
          exact absurd hm2 (by simp)
        · exact ⟨hm1', hm2⟩
    · have hmarkf : v.getD nb false = false := by
        revert hmark
        cases v.getD nb false <;> simp
      rw [hstep, if_neg (by rw [hgd, hmarkf]; simp)]
      obtain ⟨newq, h1, h2, h3, h4, h5, h6, h7⟩ := ih (q ++ [nb]) (v.set nb true)
        (by rw [List.length_set]; exact hv)
        (fun m hm => hbnd m (List.mem_cons_of_mem _ hm))
      have hset_at : ∀ m, (v.set nb true).getD m false
          = if m = nb then true else v.getD m false := by
        intro m
        rcases eq_or_ne m nb with rfl | hne
        · rw [if_pos rfl, getD_set_self v m _ false hnblen]
        · rw [if_neg hne, getD_set_ne v nb m _ false (Ne.symm hne)]
      refine ⟨nb :: newq, ?_, h2, ?_, ?_, ?_, ?_, ?_⟩
      · rw [h1, List.append_assoc]
        rfl
      · rw [List.nodup_cons]
        refine ⟨fun hmem => ?_, h3⟩
        have := ((h4 nb).mp hmem).2
        rw [hset_at nb, if_pos rfl] at this
        exact absurd this (by simp)
      · intro m
        rw [List.mem_cons, h4 m, hset_at m]
        constructor
        · rintro (rfl | ⟨hm1, hm2⟩)
          · exact ⟨List.mem_cons_self _ _, hmarkf⟩
          · rcases eq_or_ne m nb with rfl | hne
            · rw [if_pos rfl] at hm2
              exact absurd hm2 (by simp)
            · rw [if_neg hne] at hm2
              exact ⟨List.mem_cons_of_mem _ hm1, hm2⟩
        · rintro ⟨hm1, hm2⟩
          rcases List.mem_cons.mp hm1 with rfl | hm1'
          · exact Or.inl rfl
          · rcases eq_or_ne m nb with rfl | hne
            · exact Or.inl rfl
            · refine Or.inr ⟨hm1', ?_⟩
              rw [if_neg hne]
              exact hm2
      · intro m
        rw [h5 m, hset_at m]
        rcases eq_or_ne m nb with rfl | hne
        · rw [if_pos rfl]
          simp [List.mem_cons]
        · rw [if_neg hne]
          constructor
          · rintro (h | h)
            · exact Or.inl h
            · exact Or.inr (List.mem_cons_of_mem _ h)
          · rintro (h | h)
            · exact Or.inl h
            · rcases List.mem_cons.mp h with rfl | h'
              · exact absurd rfl hne
              · exact Or.inr h'
      · rw [List.length_cons]
        have hcf := countFalse_set_true v nb hnblen hmarkf
        omega
      · intro m hm
        rcases List.mem_cons.mp hm with rfl | hm'
        · exact hnb
        · exact h7 m hm'

end CellEvo

namespace CellEvo

theorem bfsLoop_run (adj : CSR) (maxI : Nat)
    (hrowb : ∀ n, n ≤ maxI → ∀ m ∈ adj.row n, m ≤ maxI) :
    ∀ (fuel : Nat) (queue : List Nat) (visited : List Bool) (acc : List Nat),
      visited.length = maxI + 1 →
      queue.length + 2 * countFalse visited < fuel →
      (∀ n ∈ queue, n ≤ maxI) →
      (∀ n ∈ queue, visited.getD n false = true) →
      queue.Nodup →
      ∃ out : List Nat,
        (bfsLoop adj fuel queue visited acc).1 = acc ++ out
        ∧ (bfsLoop adj fuel queue visited acc).2.length = maxI + 1
        ∧ out.head? = queue.head?
        ∧ out.Nodup
        ∧ (∀ n, n ∈ out ↔ (n ∈ queue ∨
            ((bfsLoop adj fuel queue visited acc).2.getD n false = true
              ∧ visited.getD n false = false)))
        ∧ (∀ n, (bfsLoop adj fuel queue visited acc).2.getD n false = true
            ↔ (visited.getD n false = true ∨ n ∈ out))
        ∧ (∀ n ∈ out, n ≤ maxI)
        ∧ (∀ n ∈ out, ∀ m ∈ adj.row n,
            (bfsLoop adj fuel queue visited acc).2.getD m false = true)
        ∧ (∀ n ∈ out, ∃ q0 ∈ queue, Relation.ReflTransGen
            (fun x y => y ∈ adj.row x) q0 n) := by
  intro fuel
  induction fuel with
  | zero =>
    intro queue visited acc _ hfuel _ _ _
    omega
  | succ f ih =>
    intro queue visited acc hlen hfuel hqb hqm hqd
    match queue with
    | [] =>
      refine ⟨[], by simp [bfsLoop], by simpa [bfsLoop] using hlen, rfl,
        List.nodup_nil, fun n => ?_, fun n => ?_, by simp, by simp, by simp⟩
      · show (n ∈ ([] : List Nat)) ↔ _
        simp only [List.not_mem_nil, false_iff]
        rw [show (bfsLoop adj (f + 1) [] visited acc).2 = visited from rfl]
        rintro (h | ⟨h1, h2⟩)
        · simp at h
        · rw [h1] at h2
          exact absurd h2 (by simp)
      · rw [show (bfsLoop adj (f + 1) [] visited acc).2 = visited from rfl]
        simp
    | node :: rest =>
      have hnode_b : node ≤ maxI := hqb node (List.mem_cons_self _ _)
      have hnode_m : visited.getD node false = true :=
        hqm node (List.mem_cons_self _ _)
      obtain ⟨newq, VN1, VN2, VN3, VN4, VN5, VN6, VN7⟩ :=
        visitNeighbors_spec maxI (adj.row node) rest visited hlen
          (hrowb node hnode_b)
      have hrest_nodup : rest.Nodup := (List.nodup_cons.mp hqd).2
      have hnode_notin_rest : node ∉ rest := (List.nodup_cons.mp hqd).1
      have hstep : bfsLoop adj (f + 1) (node :: rest) visited acc
          = bfsLoop adj f (visitNeighbors (adj.row node) (rest, visited)).1
              (visitNeighbors (adj.row node) (rest, visited)).2 (acc ++ [node]) := rfl
      have hq1 : (visitNeighbors (adj.row node) (rest, visited)).1 = rest ++ newq := VN1
      have hih := ih (visitNeighbors (adj.row node) (rest, visited)).1
        (visitNeighbors (adj.row node) (rest, visited)).2 (acc ++ [node])
        VN2
        (by
          rw [hq1, List.length_append]
          have h1 : countFalse (visitNeighbors (adj.row node) (rest, visited)).2
              + newq.length = countFalse visited := VN6
          simp only [List.length_cons] at hfuel
          omega)
        (by
          intro n hn
          rw [hq1] at hn
          rcases List.mem_append.mp hn with h | h
          · exact hqb n (List.mem_cons_of_mem _ h)
          · exact VN7 n h)
        (by
          intro n hn
          rw [hq1] at hn
          rcases List.mem_append.mp hn with h | h
          · exact (VN5 n).mpr (Or.inl (hqm n (List.mem_cons_of_mem _ h)))
          · exact (VN5 n).mpr (Or.inr h))
        (by
          rw [hq1, List.nodup_append]
          refine ⟨hrest_nodup, VN3, ?_⟩
          intro n hn hn'
          have h1 := hqm n (List.mem_cons_of_mem _ hn)
          have h2 := ((VN4 n).mp hn').2
          rw [h1] at h2
          exact absurd h2 (by simp))
      obtain ⟨out', I1, I2, I3, I4, I5, I6, I7, I8, I9⟩ := hih
      have hnode_notin_q1 : node ∉ (visitNeighbors (adj.row node) (rest, visited)).1 := by
        rw [hq1]
        intro h
        rcases List.mem_append.mp h with h | h
        · exact hnode_notin_rest h
        · have := ((VN4 node).mp h).2
          rw [hnode_m] at this
          exact absurd this (by simp)
      have hnode_marked_q : (visitNeighbors (adj.row node) (rest, visited)).2.getD
          node false = true := (VN5 node).mpr (Or.inl hnode_m)
      have hnode_notin_out' : node ∉ out' := by
        intro h
        rcases (I5 node).mp h with h | ⟨_, h2⟩
        · exact hnode_notin_q1 h
        · rw [hnode_marked_q] at h2
          exact absurd h2 (by simp)
      refine ⟨node :: out', ?_, ?_, rfl, ?_, ?_, ?_, ?_, ?_, ?_⟩
      · rw [hstep, I1, List.append_assoc]
        rfl
      · rw [hstep]
        exact I2
      · rw [List.nodup_cons]
        exact ⟨hnode_notin_out', I4⟩
      · intro n
        rw [hstep, List.mem_cons]
        constructor
        · rintro (rfl | h)
          · exact Or.inl (List.mem_cons_self _ _)
          · rcases (I5 n).mp h with h1 | ⟨h1, h2⟩
            · rw [hq1] at h1
              rcases List.mem_append.mp h1 with h1 | h1
              · exact Or.inl (List.mem_cons_of_mem _ h1)
              · refine Or.inr ⟨?_, ((VN4 n).mp h1).2⟩
                exact (I6 n).mpr (Or.inl ((VN5 n).mpr (Or.inr h1)))
            · refine Or.inr ⟨h1, ?_⟩
              rcases Bool.eq_false_or_eq_true (visited.getD n false) with hb | hb
              · rw [(VN5 n).mpr (Or.inl hb)] at h2
                exact absurd h2 (by simp)
              · exact hb
        · rintro (h | ⟨h1, h2⟩)
          · rcases List.mem_cons.mp h with rfl | h'
            · exact Or.inl rfl
            · refine Or.inr ((I5 n).mpr (Or.inl ?_))
              rw [hq1]
              exact List.mem_append.mpr (Or.inl h')
          · rcases Bool.eq_false_or_eq_true
              ((visitNeighbors (adj.row node) (rest, visited)).2.getD n false)
              with hb | hb
            · rcases (VN5 n).mp hb with hb' | hb'
              · rw [hb'] at h2
                exact absurd h2 (by simp)
              · refine Or.inr ((I5 n).mpr (Or.inl ?_))
                rw [hq1]
                exact List.mem_append.mpr (Or.inr hb')
            · exact Or.inr ((I5 n).mpr (Or.inr ⟨h1, hb⟩))
      · intro n
        rw [hstep, I6 n, VN5 n, List.mem_cons]
        constructor
        · rintro ((h | h) | h)
          · exact Or.inl h
          · refine Or.inr (Or.inr ((I5 n).mpr (Or.inl ?_)))
            rw [hq1]
            exact List.mem_append.mpr (Or.inr h)
          · exact Or.inr (Or.inr h)
        · rintro (h | (rfl | h))
          · exact Or.inl (Or.inl h)
          · exact Or.inl (Or.inl hnode_m)
          · exact Or.inr h
      · intro n hn
        rcases List.mem_cons.mp hn with rfl | h
        · exact hnode_b
        · exact I7 n h
      · intro n hn m hm
        rw [hstep]
        rcases List.mem_cons.mp hn with rfl | h
        · rcases Bool.eq_false_or_eq_true (visited.getD m false) with hb | hb
          · exact (I6 m).mpr (Or.inl ((VN5 m).mpr (Or.inl hb)))
          · have hmn : m ∈ newq := (VN4 m).mpr ⟨hm, hb⟩
            exact (I6 m).mpr (Or.inl ((VN5 m).mpr (Or.inr hmn)))
        · exact I8 n h m hm
      · intro n hn
        rcases List.mem_cons.mp hn with rfl | h
        · exact ⟨n, List.mem_cons_self _ _, Relation.ReflTransGen.refl⟩
        · obtain ⟨q0, hq0, hreach⟩ := I9 n h
          rw [hq1] at hq0
          rcases List.mem_append.mp hq0 with h' | h'
          · exact ⟨q0, List.mem_cons_of_mem _ h', hreach⟩
          · refine ⟨node, List.mem_cons_self _ _, ?_⟩
            have hq0row : q0 ∈ adj.row node := ((VN4 q0).mp h').1
            exact Relation.ReflTransGen.trans
              (Relation.ReflTransGen.single hq0row) hreach

end CellEvo

namespace CellEvo

/-- Reachability through adjacency rows coincides with reachability through
the edge list (rows are the node itself plus its edge neighbors). -/
theorem rowReach_iff (conns : List IdxPair) (max_index : Nat)
    (hb : ∀ c ∈ conns, c.a ≤ max_index ∧ c.b ≤ max_index)
    (x : Nat) (hx : x ≤ max_index) (y : Nat) :
    Relation.ReflTransGen
        (fun a b => b ∈ (CSR.adjacent_from_connections conns max_index).row a) x y
      ↔ Reach conns x y := by
  constructor
  · intro h
    have hmain : y ≤ max_index ∧ Reach conns x y := by
      induction h with
      | refl => exact ⟨hx, Relation.ReflTransGen.refl⟩
      | tail hxb hstep ih =>
        obtain ⟨hble, hreach⟩ := ih
        rcases (row_mem conns max_index hb _ hble _).mp hstep with rfl | he
        · exact ⟨hble, hreach⟩
        · exact ⟨edgeRel_bound conns max_index hb _ _ he,
            Relation.ReflTransGen.tail hreach he⟩
    exact hmain.2
  · intro h
    have hmain : y ≤ max_index ∧ Relation.ReflTransGen
        (fun a b => b ∈ (CSR.adjacent_from_connections conns max_index).row a) x y := by
      induction h with
      | refl => exact ⟨hx, Relation.ReflTransGen.refl⟩
      | tail hxb hstep ih =>
        obtain ⟨hble, hreach⟩ := ih
        refine ⟨edgeRel_bound conns max_index hb _ _ hstep,
          Relation.ReflTransGen.tail hreach ?_⟩
        exact (row_mem conns max_index hb _ hble _).mpr (Or.inr hstep)
    exact hmain.2

/-- Consecutive `[start, end)` ranges: each range starts where the previous
ended, the first at `s`, the last ending at `e`, every range nonempty. -/
def ChainedFrom : List IdxPair → Nat → Nat → Prop
  | [], s, e => s = e
  | p :: ps, s, e => p.a = s ∧ p.a < p.b ∧ ChainedFrom ps p.b e

theorem ChainedFrom.le : ∀ (ps : List IdxPair) (s e : Nat),
    ChainedFrom ps s e → s ≤ e := by
  intro ps
  induction ps with
  | nil =>
    intro s e h
    exact Nat.le_of_eq h
  | cons q ps ih =>
    intro s e h
    obtain ⟨h1, h2, h3⟩ := h
    have := ih q.b e h3
    omega

theorem ChainedFrom.bounds : ∀ (ps : List IdxPair) (s e : Nat),
    ChainedFrom ps s e → ∀ (g : Nat) (p : IdxPair), ps[g]? = Option.some p →
      s ≤ p.a ∧ p.a < p.b ∧ p.b ≤ e := by
  intro ps
  induction ps with
  | nil =>
    intro s e _ g p hg
    rw [List.getElem?_nil] at hg
    exact absurd hg (by simp)
  | cons q ps ih =>
    intro s e h g p hg
    obtain ⟨h1, h2, h3⟩ := h
    cases g with
    | zero =>
      rw [List.getElem?_cons_zero] at hg
      injection hg with hg
      subst hg
      exact ⟨Nat.le_of_eq h1.symm, h2, ChainedFrom.le ps q.b e h3⟩
    | succ g' =>
      rw [List.getElem?_cons_succ] at hg
      have := ih q.b e h3 g' p hg
      omega

theorem ChainedFrom.append : ∀ (ps : List IdxPair) (s e e2 : Nat),
    ChainedFrom ps s e → e < e2 →
    ChainedFrom (ps ++ [IdxPair.mk e e2]) s e2 := by
  intro ps
  induction ps with
  | nil =>
    intro s e e2 h hlt
    obtain rfl : s = e := h
    exact ⟨rfl, hlt, rfl⟩
  | cons q ps ih =>
    intro s e e2 h hlt
    obtain ⟨h1, h2, h3⟩ := h
    exact ⟨h1, h2, ih q.b e e2 h3 hlt⟩

theorem slice_append_left {α : Type} (l1 l2 : List α) (a b : Nat)
    (hble : b ≤ l1.length) :
    (((l1 ++ l2).drop a).take (b - a)) = ((l1.drop a).take (b - a)) := by
  apply List.ext_getElem?
  intro t
  by_cases ht : t < b - a
  · rw [List.getElem?_take_of_lt ht, List.getElem?_take_of_lt ht,
      List.getElem?_drop, List.getElem?_drop,
      List.getElem?_append_left (by omega)]
  · rw [List.getElem?_eq_none (by
        rw [List.length_take, List.length_drop, List.length_append]
        omega),
      List.getElem?_eq_none (by
        rw [List.length_take, List.length_drop]
        omega)]

theorem take_append_left {α : Type} (l1 l2 : List α) (a : Nat)
    (h : a ≤ l1.length) : (l1 ++ l2).take a = l1.take a := by
  apply List.ext_getElem?
  intro t
  by_cases ht : t < a
  · rw [List.getElem?_take_of_lt ht, List.getElem?_take_of_lt ht,
      List.getElem?_append_left (by omega)]
  · rw [List.getElem?_eq_none (by
        rw [List.length_take, List.length_append]
        omega),
      List.getElem?_eq_none (by
        rw [List.length_take]
        omega)]

end CellEvo

namespace CellEvo

theorem groupFold_invariant (conns : List IdxPair) (max_index : Nat)
    (hb : ∀ c ∈ conns, c.a ≤ max_index ∧ c.b ≤ max_index) :
    ∀ (s : Nat), s ≤ max_index + 1 →
      (((List.range s).foldl (groupStep (CSR.adjacent_from_connections conns max_index))
        ([], [], List.replicate (max_index + 1) false)).2.2.length = max_index + 1)
      ∧ (∀ n, ((List.range s).foldl (groupStep (CSR.adjacent_from_connections conns max_index))
          ([], [], List.replicate (max_index + 1) false)).2.2.getD n false = true
          ↔ n ∈ ((List.range s).foldl (groupStep (CSR.adjacent_from_connections conns max_index))
            ([], [], List.replicate (max_index + 1) false)).1)
      ∧ (((List.range s).foldl (groupStep (CSR.adjacent_from_connections conns max_index))
          ([], [], List.replicate (max_index + 1) false)).1.Nodup)
      ∧ (∀ n ∈ ((List.range s).foldl (groupStep (CSR.adjacent_from_connections conns max_index))
          ([], [], List.replicate (max_index + 1) false)).1, n ≤ max_index)
      ∧ (∀ n ∈ ((List.range s).foldl (groupStep (CSR.adjacent_from_connections conns max_index))
          ([], [], List.replicate (max_index + 1) false)).1,
          ∀ m ∈ (CSR.adjacent_from_connections conns max_index).row n,
          m ∈ ((List.range s).foldl (groupStep (CSR.adjacent_from_connections conns max_index))
            ([], [], List.replicate (max_index + 1) false)).1)
      ∧ (∀ t, t < s → t ∈ ((List.range s).foldl
          (groupStep (CSR.adjacent_from_connections conns max_index))
          ([], [], List.replicate (max_index + 1) false)).1)
      ∧ ChainedFrom ((List.range s).foldl
          (groupStep (CSR.adjacent_from_connections conns max_index))
          ([], [], List.replicate (max_index + 1) false)).2.1 0
          ((List.range s).foldl (groupStep (CSR.adjacent_from_connections conns max_index))
            ([], [], List.replicate (max_index + 1) false)).1.length
      ∧ (∀ (g : Nat) (p : IdxPair),
          ((List.range s).foldl (groupStep (CSR.adjacent_from_connections conns max_index))
            ([], [], List.replicate (max_index + 1) false)).2.1[g]? = Option.some p →
          ∃ f, ((((List.range s).foldl
              (groupStep (CSR.adjacent_from_connections conns max_index))
              ([], [], List.replicate (max_index + 1) false)).1.drop p.a).take
              (p.b - p.a)).head? = Option.some f
            ∧ f < s
            ∧ (∀ m, m ∈ (((List.range s).foldl
                (groupStep (CSR.adjacent_from_connections conns max_index))
                ([], [], List.replicate (max_index + 1) false)).1.drop p.a).take
                (p.b - p.a) ↔ Reach conns f m))
      ∧ (∀ (g : Nat) (p : IdxPair),
          ((List.range s).foldl (groupStep (CSR.adjacent_from_connections conns max_index))
            ([], [], List.replicate (max_index + 1) false)).2.1[g]? = Option.some p →
          ∀ f, ((((List.range s).foldl
              (groupStep (CSR.adjacent_from_connections conns max_index))
              ([], [], List.replicate (max_index + 1) false)).1.drop p.a).take
              (p.b - p.a)).head? = Option.some f →
          ∀ t, t < f → t ∈ ((List.range s).foldl
            (groupStep (CSR.adjacent_from_connections conns max_index))
            ([], [], List.replicate (max_index + 1) false)).1.take p.a) := by
  intro s
  induction s with
  | zero =>
    intro _
    refine ⟨by simp, fun n => ?_, List.nodup_nil, by simp, by simp, by simp,
      rfl, fun g p hg => ?_, fun g p hg => ?_⟩
    · show (List.replicate (max_index + 1) false).getD n false = true ↔ n ∈ ([] : List Nat)
      rw [List.getD_eq_getElem?_getD, List.getElem?_replicate]
      by_cases h : n < max_index + 1
      · rw [if_pos h]
        simp
      · rw [if_neg h]
        simp
    · rw [show ((List.range 0).foldl
        (groupStep (CSR.adjacent_from_connections conns max_index))
        ([], [], List.replicate (max_index + 1) false)).2.1 = [] from rfl] at hg
      rw [List.getElem?_nil] at hg
      exact absurd hg (by simp)
    · rw [show ((List.range 0).foldl
        (groupStep (CSR.adjacent_from_connections conns max_index))
        ([], [], List.replicate (max_index + 1) false)).2.1 = [] from rfl] at hg
      rw [List.getElem?_nil] at hg
      exact absurd hg (by simp)
  | succ s ih =>
    intro hs
    obtain ⟨P1, P2, P3, P4, P5, P6, P7, P8, P9⟩ := ih (by omega)
    have hsmax : s ≤ max_index := by omega
    have hfold : (List.range (s + 1)).foldl
        (groupStep (CSR.adjacent_from_connections conns max_index))
        ([], [], List.replicate (max_index + 1) false)
        = groupStep (CSR.adjacent_from_connections conns max_index)
          ((List.range s).foldl
            (groupStep (CSR.adjacent_from_connections conns max_index))
            ([], [], List.replicate (max_index + 1) false)) s := by
      rw [List.range_succ, List.foldl_append]
      rfl
    set st := (List.range s).foldl
      (groupStep (CSR.adjacent_from_connections conns max_index))
      ([], [], List.replicate (max_index + 1) false) with hst
    have hslen : s < st.2.2.length := by omega
    have hgd : st.2.2.getD s true = st.2.2.getD s false :=
      getD_eq_of_lt st.2.2 true false s hslen
    by_cases hmark : st.2.2.getD s false = true
    · -- start already visited: no-op step
      have hstep : groupStep (CSR.adjacent_from_connections conns max_index) st s = st := by
        unfold groupStep
        rw [if_pos (by rw [hgd]; exact hmark)]
      rw [hfold, hstep]
      refine ⟨P1, P2, P3, P4, P5, fun t ht => ?_, P7,
        fun g p hg => ?_, P9⟩
      · rcases Nat.lt_or_ge t s with h | h
        · exact P6 t h
        · obtain rfl : t = s := by omega
          exact (P2 t).mp hmark
      · obtain ⟨f, h1, h2, h3⟩ := P8 g p hg
        exact ⟨f, h1, by omega, h3⟩
    · -- new BFS run from start s
      have hmarkf : st.2.2.getD s false = false := by
        revert hmark
        cases st.2.2.getD s false <;> simp
      have hstep : groupStep (CSR.adjacent_from_connections conns max_index) st s
          = ((bfsLoop (CSR.adjacent_from_connections conns max_index)
                (2 + 2 * countFalse (st.2.2.set s true)) [s] (st.2.2.set s true) st.1).1,
             st.2.1 ++ [IdxPair.mk st.1.length
               (bfsLoop (CSR.adjacent_from_connections conns max_index)
                 (2 + 2 * countFalse (st.2.2.set s true)) [s] (st.2.2.set s true) st.1).1.length],
             (bfsLoop (CSR.adjacent_from_connections conns max_index)
               (2 + 2 * countFalse (st.2.2.set s true)) [s] (st.2.2.set s true) st.1).2) := by
        unfold groupStep
        rw [if_neg (by rw [hgd, hmarkf]; simp)]
      obtain ⟨out, B1, B2, B3, B4, B5, B6, B7, B8, B9⟩ :=
        bfsLoop_run (CSR.adjacent_from_connections conns max_index) max_index
          (fun n hn m hm => row_bound conns max_index hb n hn m hm)
          (2 + 2 * countFalse (st.2.2.set s true)) [s] (st.2.2.set s true) st.1
          (by rw [List.length_set]; exact P1)
          (by simp only [List.length_cons, List.length_nil]; omega)
          (by intro n hn; rcases List.mem_cons.mp hn with rfl | h
              · exact hsmax
              · simp at h)
          (by intro n hn; rcases List.mem_cons.mp hn with rfl | h
              · exact getD_set_self st.2.2 n true false hslen
              · simp at h)
          (by simp)
      have hset_at : ∀ m, (st.2.2.set s true).getD m false
          = if m = s then true else st.2.2.getD m false := by
        intro m
        rcases eq_or_ne m s with rfl | hne
        · rw [if_pos rfl, getD_set_self st.2.2 m true false hslen]
        · rw [if_neg hne, getD_set_ne st.2.2 s m true false (Ne.symm hne)]
      have hs_in_out : s ∈ out := (B5 s).mpr (Or.inl (List.mem_cons_self _ _))
      have hout_disj : ∀ n ∈ out, n ∉ st.1 := by
        intro n hn hmem
        rcases (B5 n).mp hn with h | ⟨_, h2⟩
        · rcases List.mem_cons.mp h with rfl | h'
          · exact absurd ((P2 n).mpr hmem) (by rw [hmarkf]; simp)
          · simp at h'
        · rw [hset_at n] at h2
          rcases eq_or_ne n s with rfl | hne
          · rw [if_pos rfl] at h2
            exact absurd h2 (by simp)
          · rw [if_neg hne] at h2
            exact absurd ((P2 n).mpr hmem) (by rw [h2]; simp)
      have hout_ne : out ≠ [] := by
        intro h
        rw [h] at B3
        exact absurd B3 (by simp)
      have hcomplete : ∀ m, Reach conns s m → m ∈ out := by
        intro m hr
        unfold Reach at hr
        induction hr with
        | refl => exact hs_in_out
        | @tail b c hxb hstep2 ihm =>
          have hbmax := B7 b ihm
          have hrowmem : c ∈ (CSR.adjacent_from_connections conns max_index).row b :=
            (row_mem conns max_index hb b hbmax c).mpr (Or.inr hstep2)
          have hmarked := B8 b ihm c hrowmem
          rcases (B6 c).mp hmarked with hv | hout
          · rw [hset_at c] at hv
            rcases eq_or_ne c s with rfl | hne
            · exact hs_in_out
            · rw [if_neg hne] at hv
              have hcin : c ∈ st.1 := (P2 c).mp hv
              have hcmax : c ≤ max_index := P4 c hcin
              have hbrow : b ∈ (CSR.adjacent_from_connections conns max_index).row c :=
                (row_mem conns max_index hb c hcmax b).mpr
                  (Or.inr (edgeRel_symm conns b c hstep2))
              have hbin : b ∈ st.1 := P5 c hcin b hbrow
              exact absurd hbin (hout_disj b ihm)
          · exact hout
      rw [hfold, hstep]
      have hlen_new : (bfsLoop (CSR.adjacent_from_connections conns max_index)
          (2 + 2 * countFalse (st.2.2.set s true)) [s] (st.2.2.set s true) st.1).1
          = st.1 ++ out := B1
      refine ⟨B2, ?_, ?_, ?_, ?_, ?_, ?_, ?_, ?_⟩
      · intro n
        show _ ↔ n ∈ (bfsLoop _ _ _ _ _).1
        rw [hlen_new, List.mem_append, B6 n, hset_at n]
        rcases eq_or_ne n s with rfl | hne
        · rw [if_pos rfl]
          simp [hs_in_out]
        · rw [if_neg hne]
          constructor
          · rintro (h | h)
            · exact Or.inl ((P2 n).mp h)
            · exact Or.inr h
          · rintro (h | h)
            · exact Or.inl ((P2 n).mpr h)
            · exact Or.inr h
      · show ((bfsLoop _ _ _ _ _).1).Nodup
        rw [hlen_new, List.nodup_append]
        exact ⟨P3, B4, fun n hn hn' => hout_disj n hn' hn⟩
      · intro n hn
        rw [hlen_new] at hn
        rcases List.mem_append.mp hn with h | h
        · exact P4 n h
        · exact B7 n h
      · intro n hn m hm
        rw [hlen_new] at hn ⊢
        rcases List.mem_append.mp hn with h | h
        · exact List.mem_append.mpr (Or.inl (P5 n h m hm))
        · have hmarked := B8 n h m hm
          rcases (B6 m).mp hmarked with hv | hout
          · rw [hset_at m] at hv
            rcases eq_or_ne m s with rfl | hne
            · exact List.mem_append.mpr (Or.inr hs_in_out)
            · rw [if_neg hne] at hv
              exact List.mem_append.mpr (Or.inl ((P2 m).mp hv))
          · exact List.mem_append.mpr (Or.inr hout)
      · intro t ht
        rw [hlen_new]
        rcases Nat.lt_or_ge t s with h | h
        · exact List.mem_append.mpr (Or.inl (P6 t h))
        · obtain rfl : t = s := by omega
          exact List.mem_append.mpr (Or.inr hs_in_out)
      · show ChainedFrom (st.2.1 ++ [IdxPair.mk st.1.length _]) 0 _
        rw [hlen_new]
        have hlt : st.1.length < (st.1 ++ out).length := by
          rw [List.length_append]
          have := List.length_pos.mpr hout_ne
          omega
        exact ChainedFrom.append st.2.1 0 st.1.length (st.1 ++ out).length P7 hlt
      · intro g p hg
        have hg2 : (st.2.1 ++ [IdxPair.mk st.1.length
            (bfsLoop (CSR.adjacent_from_connections conns max_index)
              (2 + 2 * countFalse (st.2.2.set s true)) [s] (st.2.2.set s true)
              st.1).1.length])[g]? = Option.some p := hg
        rw [hlen_new] at hg2
        show ∃ f, (((bfsLoop (CSR.adjacent_from_connections conns max_index)
            (2 + 2 * countFalse (st.2.2.set s true)) [s] (st.2.2.set s true)
            st.1).1.drop p.a).take (p.b - p.a)).head? = Option.some f
          ∧ f < s + 1
          ∧ ∀ m, m ∈ ((bfsLoop (CSR.adjacent_from_connections conns max_index)
              (2 + 2 * countFalse (st.2.2.set s true)) [s] (st.2.2.set s true)
              st.1).1.drop p.a).take (p.b - p.a) ↔ Reach conns f m
        rw [hlen_new]
        rcases Nat.lt_trichotomy g st.2.1.length with hglt | hgeq | hggt
        · rw [List.getElem?_append_left hglt] at hg2
          obtain ⟨f, hf1, hf2, hf3⟩ := P8 g p hg2
          obtain ⟨_, _, hpb⟩ := ChainedFrom.bounds st.2.1 0 st.1.length P7 g p hg2
          rw [slice_append_left st.1 out p.a p.b hpb]
          exact ⟨f, hf1, by omega, hf3⟩
        · subst hgeq
          rw [List.getElem?_concat_length] at hg2
          injection hg2 with hg2
          subst hg2
          have hslice : ((st.1 ++ out).drop st.1.length).take
              ((st.1 ++ out).length - st.1.length) = out := by
            rw [List.drop_left, List.length_append,
              show st.1.length + out.length - st.1.length = out.length by omega,
              List.take_length]
          rw [show (IdxPair.mk st.1.length (st.1 ++ out).length).a
            = st.1.length from rfl]
          rw [show (IdxPair.mk st.1.length (st.1 ++ out).length).b
            = (st.1 ++ out).length from rfl]
          rw [hslice]
          refine ⟨s, by rw [B3]; rfl, by omega, fun m => ?_⟩
          constructor
          · intro hm
            obtain ⟨q0, hq0, hreach⟩ := B9 m hm
            rcases List.mem_cons.mp hq0 with rfl | h'
            · exact (rowReach_iff conns max_index hb q0 hsmax m).mp hreach
            · simp at h'
          · exact hcomplete m
        · rw [List.getElem?_eq_none (by
            rw [List.length_append, List.length_cons, List.length_nil]
            omega)] at hg2
          exact absurd hg2 (by simp)
      · intro g p hg
        have hg2 : (st.2.1 ++ [IdxPair.mk st.1.length
            (bfsLoop (CSR.adjacent_from_connections conns max_index)
              (2 + 2 * countFalse (st.2.2.set s true)) [s] (st.2.2.set s true)
              st.1).1.length])[g]? = Option.some p := hg
        rw [hlen_new] at hg2
        show ∀ f, (((bfsLoop (CSR.adjacent_from_connections conns max_index)
            (2 + 2 * countFalse (st.2.2.set s true)) [s] (st.2.2.set s true)
            st.1).1.drop p.a).take (p.b - p.a)).head? = Option.some f →
          ∀ t, t < f → t ∈ (bfsLoop (CSR.adjacent_from_connections conns max_index)
            (2 + 2 * countFalse (st.2.2.set s true)) [s] (st.2.2.set s true)
            st.1).1.take p.a
        rw [hlen_new]
        intro f hf t ht
        rcases Nat.lt_trichotomy g st.2.1.length with hglt | hgeq | hggt
        · rw [List.getElem?_append_left hglt] at hg2
          obtain ⟨hpa0, hpab, hpb⟩ := ChainedFrom.bounds st.2.1 0 st.1.length P7 g p hg2
          rw [slice_append_left st.1 out p.a p.b hpb] at hf
          rw [take_append_left st.1 out p.a (by omega)]
          exact P9 g p hg2 f hf t ht
        · subst hgeq
          rw [List.getElem?_concat_length] at hg2
          injection hg2 with hg2
          subst hg2
          have hslice : ((st.1 ++ out).drop st.1.length).take
              ((st.1 ++ out).length - st.1.length) = out := by
            rw [List.drop_left, List.length_append,
              show st.1.length + out.length - st.1.length = out.length by omega,
              List.take_length]
          rw [show (IdxPair.mk st.1.length (st.1 ++ out).length).a
            = st.1.length from rfl] at hf ⊢
          rw [show (IdxPair.mk st.1.length (st.1 ++ out).length).b
            = (st.1 ++ out).length from rfl] at hf
          rw [hslice, B3] at hf
          simp only [List.head?_cons] at hf
          injection hf with hf
          subst hf
          rw [take_append_left st.1 out st.1.length (by omega), List.take_length]
          exact P6 t (by omega)
        · rw [List.getElem?_eq_none (by
            rw [List.length_append, List.length_cons, List.length_nil]
            omega)] at hg2
          exact absurd hg2 (by simp)

end CellEvo

namespace CellEvo

theorem ChainedFrom.ordered : ∀ (ps : List IdxPair) (s e : Nat),
    ChainedFrom ps s e → ∀ (k k2 : Nat) (p p2 : IdxPair), k < k2 →
    ps[k]? = Option.some p → ps[k2]? = Option.some p2 → p.b ≤ p2.a := by
  intro ps
  induction ps with
  | nil =>
    intro s e h k k2 p p2 hk hp hp2
    rw [List.getElem?_nil] at hp
    exact absurd hp (by simp)
  | cons q ps ih =>
    intro s e h k k2 p p2 hk hp hp2
    obtain ⟨h1, h2, h3⟩ := h
    cases k with
    | zero =>
      rw [List.getElem?_cons_zero] at hp
      injection hp with hp
      subst hp
      cases k2 with
      | zero => omega
      | succ k2 =>
        rw [List.getElem?_cons_succ] at hp2
        have := ChainedFrom.bounds ps q.b e h3 k2 p2 hp2
        omega
    | succ k =>
      cases k2 with
      | zero => omega
      | succ k2 =>
        rw [List.getElem?_cons_succ] at hp
        rw [List.getElem?_cons_succ] at hp2
        exact ih q.b e h3 k k2 p p2 (by omega) hp hp2

theorem mem_of_head_eq {α : Type} (l : List α) (a : α)
    (h : l.head? = Option.some a) : a ∈ l := by
  cases l with
  | nil => exact absurd h (by simp)
  | cons x xs =>
    rw [List.head?_cons] at h
    injection h with h
    subst h
    exact List.mem_cons_self x xs

theorem nodup_take_drop {α : Type} (l : List α) (a : Nat) (h : l.Nodup) :
    ∀ m, m ∈ l.take a → m ∉ l.drop a := by
  intro m h1 h2
  have hsplit : l.take a ++ l.drop a = l := List.take_append_drop a l
  rw [← hsplit, List.nodup_append] at h
  exact h.2.2 h1 h2

theorem mem_take_of_slice {α : Type} (l : List α) (a b c : Nat) (hbc : b ≤ c)
    (m : α) (hm : m ∈ (l.drop a).take (b - a)) : m ∈ l.take c := by
  obtain ⟨i, hi, hgot⟩ := List.getElem_of_mem hm
  have hlen : i < b - a := by
    have h := hi
    rw [List.length_take, List.length_drop] at h
    omega
  have h1 : ((l.drop a).take (b - a))[i]? = Option.some m := by
    rw [List.getElem?_eq_getElem hi, hgot]
  rw [List.getElem?_take_of_lt hlen, List.getElem?_drop] at h1
  have h2 : (l.take c)[a + i]? = Option.some m := by
    rw [List.getElem?_take_of_lt (by omega)]
    exact h1
  exact List.getElem?_mem h2

theorem mem_drop_of_le {α : Type} (l : List α) (a b : Nat) (hab : a ≤ b)
    (m : α) (hm : m ∈ l.drop b) : m ∈ l.drop a := by
  have h : l.drop b = (l.drop a).drop (b - a) := by
    rw [List.drop_drop, show a + (b - a) = b from by omega]
  rw [h] at hm
  exact List.mem_of_mem_drop hm

/-- The specification's description of `groups_from_connections` output, stated
over the embedded `CSR` result: the indices list enumerates every node id
`0..=max_index` exactly once; the indptr entries are consecutive `[start, end)`
ranges covering it; each group is headed by a start node `f`, consists exactly
of the connected component of `f`, and every id below `f` lies in an earlier
group (the ascending-sweep discovery order); consequently each head is the
minimum of its group and heads strictly increase across groups. -/
def GroupsSpec (conns : List IdxPair) (max_index : Nat) (g : CSR) : Prop :=
  g.indices.Nodup
  ∧ (∀ n, n ∈ g.indices ↔ n ≤ max_index)
  ∧ ChainedFrom g.indptr 0 g.indices.length
  ∧ (∀ (k : Nat) (p : IdxPair), g.indptr[k]? = Option.some p →
      ∃ f, ((g.indices.drop p.a).take (p.b - p.a)).head? = Option.some f
        ∧ (∀ m, m ∈ (g.indices.drop p.a).take (p.b - p.a) ↔ Reach conns f m)
        ∧ (∀ t, t < f → t ∈ g.indices.take p.a)
        ∧ (∀ m ∈ (g.indices.drop p.a).take (p.b - p.a), f ≤ m))
  ∧ (∀ (k k2 : Nat) (p p2 : IdxPair) (f f2 : Nat), k < k2 →
      g.indptr[k]? = Option.some p → g.indptr[k2]? = Option.some p2 →
      ((g.indices.drop p.a).take (p.b - p.a)).head? = Option.some f →
      ((g.indices.drop p2.a).take (p2.b - p2.a)).head? = Option.some f2 →
      f < f2)

/-- C6: for every edge list whose endpoints are all ≤ max_index,
`groups_from_connections` partitions node ids `0..=max_index`: every id appears
exactly once in the output indices (isolated nodes as singleton groups), the
indptr entries are consecutive `[start, end)` ranges in discovery order of an
ascending sweep of start nodes from 0 (each group's head is the least id not in
an earlier group, heads strictly ascend), and each group is exactly one
connected component; in particular, edges {(0,1),(1,2),(3,4)} with max_index 5
yield the groups {0,1,2}, {3,4}, {5} in that order. -/
theorem groups_from_connections_spec :
    (∀ (conns : List IdxPair) (max_index : Nat),
        (∀ c ∈ conns, c.a ≤ max_index ∧ c.b ≤ max_index) →
        GroupsSpec conns max_index (CSR.groups_from_connections conns max_index))
    ∧ CSR.groups_from_connections [IdxPair.mk 0 1, IdxPair.mk 1 2, IdxPair.mk 3 4] 5
      = CSR.mk [0, 1, 2, 3, 4, 5] [IdxPair.mk 0 3, IdxPair.mk 3 5, IdxPair.mk 5 6] := by
  constructor
  · intro conns max_index hb
    obtain ⟨P1, P2, P3, P4, P5, P6, P7, P8, P9⟩ :=
      groupFold_invariant conns max_index hb (max_index + 1) (Nat.le_refl _)
    have hnodup : (CSR.groups_from_connections conns max_index).indices.Nodup := P3
    have hmem : ∀ n, n ∈ (CSR.groups_from_connections conns max_index).indices
        ↔ n ≤ max_index := by
      intro n
      constructor
      · intro hn
        exact P4 n hn
      · intro hn
        exact P6 n (by omega)
    have hchain : ChainedFrom (CSR.groups_from_connections conns max_index).indptr 0
        (CSR.groups_from_connections conns max_index).indices.length := P7
    have hgroup : ∀ (k : Nat) (p : IdxPair),
        (CSR.groups_from_connections conns max_index).indptr[k]? = Option.some p →
        ∃ f, (((CSR.groups_from_connections conns max_index).indices.drop p.a).take
            (p.b - p.a)).head? = Option.some f
          ∧ (∀ m, m ∈ ((CSR.groups_from_connections conns max_index).indices.drop
              p.a).take (p.b - p.a) ↔ Reach conns f m)
          ∧ (∀ t, t < f →
              t ∈ (CSR.groups_from_connections conns max_index).indices.take p.a) := by
      intro k p hk
      obtain ⟨f, hf1, hf2, hf3⟩ := P8 k p hk
      exact ⟨f, hf1, hf3, fun t ht => P9 k p hk f hf1 t ht⟩
    refine ⟨hnodup, hmem, hchain, ?_, ?_⟩
    · intro k p hk
      obtain ⟨f, hf1, hf2, hf3⟩ := hgroup k p hk
      refine ⟨f, hf1, hf2, hf3, ?_⟩
      intro m hm
      by_contra hlt
      have hmf : m < f := by omega
      have h1 : m ∈ (CSR.groups_from_connections conns max_index).indices.take p.a :=
        hf3 m hmf
      have h2 : m ∈ (CSR.groups_from_connections conns max_index).indices.drop p.a :=
        List.mem_of_mem_take hm
      exact nodup_take_drop _ p.a hnodup m h1 h2
    · intro k k2 p p2 f f2 hkk hk hk2 hhf hhf2
      obtain ⟨f', hf1, hf2, hf3⟩ := hgroup k p hk
      rw [hhf] at hf1
      injection hf1 with hf1
      subst hf1
      by_contra hcon
      have hple : p.b ≤ p2.a :=
        ChainedFrom.ordered (CSR.groups_from_connections conns max_index).indptr 0
          (CSR.groups_from_connections conns max_index).indices.length hchain
          k k2 p p2 hkk hk hk2
      have hf2mem : f2 ∈ ((CSR.groups_from_connections conns max_index).indices.drop
          p2.a).take (p2.b - p2.a) := mem_of_head_eq _ f2 hhf2
      rcases Nat.lt_or_ge f2 f with hlt | hge
      · have h1 : f2 ∈ (CSR.groups_from_connections conns max_index).indices.take p.a :=
          hf3 f2 hlt
        obtain ⟨hb0, hbab, hbb⟩ := ChainedFrom.bounds
          (CSR.groups_from_connections conns max_index).indptr 0
          (CSR.groups_from_connections conns max_index).indices.length hchain k p hk
        have h2 : f2 ∈ (CSR.groups_from_connections conns max_index).indices.drop p.a :=
          mem_drop_of_le _ p.a p2.a (by omega) f2 (List.mem_of_mem_take hf2mem)
        exact nodup_take_drop _ p.a hnodup f2 h1 h2
      · have hfe : f = f2 := by omega
        have hfmem : f ∈ ((CSR.groups_from_connections conns max_index).indices.drop
            p.a).take (p.b - p.a) := mem_of_head_eq _ f hhf
        have h1 : f ∈ (CSR.groups_from_connections conns max_index).indices.take p2.a :=
          mem_take_of_slice _ p.a p.b p2.a hple f hfmem
        have h2 : f ∈ (CSR.groups_from_connections conns max_index).indices.drop p2.a := by
          rw [hfe]
          exact List.mem_of_mem_take hf2mem
        exact nodup_take_drop _ p2.a hnodup f h1 h2
  · decide

theorem groups_from_connections_spec_witness :
    (∀ c ∈ [IdxPair.mk 0 1, IdxPair.mk 1 2, IdxPair.mk 3 4], c.a ≤ 5 ∧ c.b ≤ 5)
    ∧ GroupsSpec [IdxPair.mk 0 1, IdxPair.mk 1 2, IdxPair.mk 3 4] 5
        (CSR.groups_from_connections [IdxPair.mk 0 1, IdxPair.mk 1 2, IdxPair.mk 3 4] 5) :=
  ⟨by decide, groups_from_connections_spec.1
    [IdxPair.mk 0 1, IdxPair.mk 1 2, IdxPair.mk 3 4] 5 (by decide)⟩

end CellEvo
